import Mathlib

/-!
# Sign options of the `provisioner` package

A shallow embedding of `authority/provisioner/sign_options.go`: the request and
certificate validators and the option that injects the provisioner extension.

Conventions of the embedding.

* A Go `error` is an `Option String`: `none` is `nil`, `some msg` is an error whose
  `Error()` text is `msg`.
* A Go slice is a `Slice`: either `nil` or a (possibly empty) list of elements.
* A Go `string` is a Lean `String`, a `[]byte` is a list of byte values.
* A `time.Time` is an instant counted in nanoseconds, a `time.Duration` an integer
  number of nanoseconds in the `int64` range.
* The clock reading `time.Now()` is an explicit argument `now`.
* The text that package `fmt` and `time` produce for a `time.Time` and a
  `time.Duration` is taken as a parameter (`Fmt`).
* What the repository keeps outside `sign_options.go` (the decoder of the extension, the
  credential-less provisioner and its claimer) is modelled from the specification; the
  doc comment of each such definition says so.
-/

namespace provisioner

/-! ## Go values -/

/-- Go's `error` interface value: `none` is `nil`, `some msg` carries the message. -/
abbrev GoError := Option String

/-- A Go slice value: `nil`, or a slice with the listed elements (`mk []` is the empty,
non-nil slice). -/
inductive Slice (α : Type) where
  | nil : Slice α
  | mk : List α → Slice α
deriving DecidableEq, Repr

namespace Slice

/-- The elements a `for ... range` loop visits, in order. -/
def toList {α : Type} : Slice α → List α
  | nil => []
  | mk xs => xs

/-- Go's builtin `len`. -/
def len {α : Type} (s : Slice α) : Nat := s.toList.length

/-- Go's builtin `append(s, x)`: the result is never `nil`. -/
def append {α : Type} (s : Slice α) (x : α) : Slice α := mk (s.toList ++ [x])

end Slice

/-! ## Time -/

/-- A `time.Time` instant, as nanoseconds elapsed since a fixed epoch. -/
structure Time where
  ns : Int
deriving DecidableEq, Repr

/-- The smallest `time.Duration` (`math.MinInt64` nanoseconds). -/
def minDuration : Int := -(2 ^ 63)

/-- The largest `time.Duration` (`math.MaxInt64` nanoseconds). -/
def maxDuration : Int := 2 ^ 63 - 1

namespace Time

/-- The method `t.Before(u)`: whether the instant `t` is before `u`. -/
def Before (t u : Time) : Bool := decide (t.ns < u.ns)

/-- The method `t.Sub(u)`: the duration `t-u`; when it does not fit a `time.Duration`
the maximum (or minimum) duration is returned. -/
def Sub (t u : Time) : Int :=
  let d := t.ns - u.ns
  if d < minDuration then minDuration
  else if maxDuration < d then maxDuration
  else d

end Time

/-- One nanosecond count per unit, as the constants of package `time`. -/
def Second : Int := 1000000000

/-- The constant `time.Minute`. -/
def Minute : Int := 60 * Second

/-- The constant `time.Hour`. -/
def Hour : Int := 60 * Minute

/-- The text package `fmt` prints under the verb `%v` for the values whose `String`
methods live in package `time`. -/
structure Fmt where
  /-- Text of a `time.Time`. -/
  time : Time → String
  /-- Text of a `time.Duration`. -/
  duration : Int → String

/-! ## X.509 data -/

/-- The fields of `pkix.Name` that take part in the validators. -/
structure Name where
  CommonName : String
  Organization : Slice String
deriving DecidableEq, Repr

/-- A `pkix.Extension`. -/
structure Extension where
  Id : List Int
  Critical : Bool
  Value : List Nat
deriving DecidableEq, Repr

/-- A `net.IP`: a byte slice. -/
abbrev IP := List Nat

/-- A `*url.URL`, kept as its text. -/
structure URL where
  text : String
deriving DecidableEq, Repr

/-- An `x509.CertificateRequest`. -/
structure CertificateRequest where
  Subject : Name
  DNSNames : Slice String
  EmailAddresses : Slice String
  IPAddresses : Slice IP
  URIs : Slice URL
  ExtraExtensions : Slice Extension
deriving DecidableEq, Repr

/-- An `x509.Certificate`. -/
structure Certificate where
  Subject : Name
  NotBefore : Time
  NotAfter : Time
  DNSNames : Slice String
  EmailAddresses : Slice String
  IPAddresses : Slice IP
  URIs : Slice URL
  Extensions : Slice Extension
  ExtraExtensions : Slice Extension
deriving DecidableEq, Repr

/-! ## validityValidator -/

/-- The struct `validityValidator`: the authorized minimum and maximum duration. -/
structure validityValidator where
  min : Int
  max : Int
deriving DecidableEq, Repr

/-- The method `(*validityValidator).Valid`. `now` is the value `time.Now()` returns
inside the call. -/
def validityValidator.Valid (f : Fmt) (now : Time) (v : validityValidator)
    (crt : Certificate) : GoError :=
  let na := crt.NotAfter
  let nb := crt.NotBefore
  let d := na.Sub nb
  if na.Before now then
    some ("NotAfter: " ++ f.time na ++ " cannot be in the past")
  else if na.Before nb then
    some ("NotAfter: " ++ f.time na ++ " cannot be before NotBefore: " ++ f.time nb)
  else if d < v.min then
    some ("requested duration of " ++ f.duration d ++
      " is less than the authorized minimum certificate duration of " ++ f.duration v.min)
  else if d > v.max then
    some ("requested duration of " ++ f.duration d ++
      " is more than the authorized maximum certificate duration of " ++ f.duration v.max)
  else none

/-! ## Maps and formatting used by the request validators -/

/-- A Go `map[string]bool`, as the list of its entries; no key occurs twice. -/
structure BoolMap where
  entries : List (String × Bool)
deriving DecidableEq, Repr

/-- Writes `k ↦ b` into a list of entries: an existing entry for `k` is overwritten,
otherwise a new entry is added. -/
def setEntry : List (String × Bool) → String → Bool → List (String × Bool)
  | [], k, b => [(k, b)]
  | (k', b') :: t, k, b => if k' = k then (k', b) :: t else (k', b') :: setEntry t k b

namespace BoolMap

/-- The map `make(map[string]bool)`. -/
def make : BoolMap := ⟨[]⟩

/-- The assignment `m[k] = b`. -/
def set (m : BoolMap) (k : String) (b : Bool) : BoolMap := ⟨setEntry m.entries k b⟩

/-- The lookup `m[k]` with its presence flag. -/
def get? (m : BoolMap) (k : String) : Option Bool := m.entries.lookup k

/-- Go's builtin `len`. -/
def len (m : BoolMap) : Nat := m.entries.length

/-- The keys of the map. -/
def keys (m : BoolMap) : List String := m.entries.map Prod.fst

end BoolMap

/-- The function `reflect.DeepEqual` on two non-nil maps: equal lengths, and every key of
the first is present in the second with an equal value. -/
def DeepEqual (a b : BoolMap) : Bool :=
  a.len == b.len && a.entries.all fun kv => b.get? kv.1 == some kv.2

/-- The loop `for _, s := range xs { m[s] = true }` run on a fresh map. -/
def setOf (xs : List String) : BoolMap :=
  xs.foldl (fun m s => m.set s true) BoolMap.make

/-- The text of a slice under the verb `%v`, given the text of its elements. -/
def fmtSlice (xs : List String) : String := "[" ++ " ".intercalate xs ++ "]"

/-! ## net.IP -/

/-- The constant `net.IPv4len`. -/
def IPv4len : Nat := 4

/-- The constant `net.IPv6len`. -/
def IPv6len : Nat := 16

/-- The helper `isZeros` of package `net`. -/
def isZeros (p : List Nat) : Bool := p.all fun b => b == 0

/-- The lower-case hexadecimal digit of a value below 16. -/
def hexDigit (n : Nat) : Char := Nat.digitChar n

/-- The helper `hexString` of package `net`: two hexadecimal digits per byte. -/
def hexString (b : List Nat) : String :=
  String.mk (b.flatMap fun tn => [hexDigit (tn / 16), hexDigit (tn % 16)])

/-- The helper `appendHex` of package `net`: hexadecimal without leading zeros. -/
def appendHex (i : Nat) : String := String.mk (Nat.toDigits 16 i)

namespace IP

/-- The method `ip.To4()`: the 4-byte form of an IPv4 address, or `nil`. -/
def To4 (ip : IP) : IP :=
  if ip.length = IPv4len then ip
  else if ip.length = IPv6len ∧ isZeros (ip.take 10) = true ∧ ip.getD 10 0 = 0xff ∧
      ip.getD 11 0 = 0xff then (ip.drop 12).take 4
  else []

/-- The inner loop of `String`: the end of the run of zero groups that starts at `j`. -/
def zeroRunEnd (p : IP) : Nat → Nat → Nat
  | 0, j => j
  | fuel + 1, j =>
    if j < IPv6len ∧ p.getD j 0 = 0 ∧ p.getD (j + 1) 0 = 0 then zeroRunEnd p fuel (j + 2)
    else j

/-- The first loop of `String`: the bounds `(e0, e1)` of the longest run of zero groups,
starting from index `i` with the best run so far. -/
def longestRun (p : IP) : Nat → Nat → Int → Int → Int × Int
  | 0, _, e0, e1 => (e0, e1)
  | fuel + 1, i, e0, e1 =>
    if i < IPv6len then
      let j := zeroRunEnd p 8 i
      if j > i ∧ ((j : Int) - (i : Int)) > e1 - e0 then longestRun p fuel (j + 2) i j
      else longestRun p fuel (i + 2) e0 e1
    else (e0, e1)

/-- The second loop of `String`: prints the groups from index `i` on, with `::` in
place of the run `[e0, e1)`. -/
def printGroups (p : IP) (e0 e1 : Int) : Nat → Nat → String
  | 0, _ => ""
  | fuel + 1, i =>
    if i < IPv6len then
      if (i : Int) = e0 then
        let i1 := e1.toNat
        if i1 ≥ IPv6len then "::"
        else "::" ++ appendHex (p.getD i1 0 * 256 + p.getD (i1 + 1) 0) ++
          printGroups p e0 e1 fuel (i1 + 2)
      else
        (if i > 0 then ":" else "") ++ appendHex (p.getD i 0 * 256 + p.getD (i + 1) 0) ++
          printGroups p e0 e1 fuel (i + 2)
    else ""

/-- The method `ip.String()`. -/
def String (ip : IP) : String :=
  if ip.length = 0 then "<nil>"
  else
    let p4 := To4 ip
    if p4.length = IPv4len then
      Nat.repr (p4.getD 0 0) ++ "." ++ Nat.repr (p4.getD 1 0) ++ "." ++
        Nat.repr (p4.getD 2 0) ++ "." ++ Nat.repr (p4.getD 3 0)
    else if ip.length ≠ IPv6len then "?" ++ hexString ip
    else
      let e := longestRun ip 8 0 (-1) (-1)
      let e' : Int × Int := if e.2 - e.1 ≤ 2 then (-1, -1) else e
      printGroups ip e'.1 e'.2 8 0

end IP

/-! ## Request validators -/

/-- The type `emailOnlyIdentity`: the only SAN allowed is this email address. -/
abbrev emailOnlyIdentity := String

/-- The method `emailOnlyIdentity.Valid`. -/
def emailOnlyIdentity.Valid (e : emailOnlyIdentity) (req : CertificateRequest) : GoError :=
  if req.DNSNames.len > 0 then
    some "certificate request cannot contain DNS names"
  else if req.IPAddresses.len > 0 then
    some "certificate request cannot contain IP addresses"
  else if req.URIs.len > 0 then
    some "certificate request cannot contain URIs"
  else if req.EmailAddresses.len = 0 then
    some "certificate request does not contain any email address"
  else if req.EmailAddresses.len > 1 then
    some "certificate request does not contain too many email addresses"
  else if req.EmailAddresses.toList.headD "" ≠ e then
    some ("certificate request does not contain the valid email address, got " ++
      req.EmailAddresses.toList.headD "" ++ ", want " ++ e)
  else none

/-- The type `commonNameValidator`: the expected common name. -/
abbrev commonNameValidator := String

/-- The method `commonNameValidator.Valid`. -/
def commonNameValidator.Valid (v : commonNameValidator) (req : CertificateRequest) :
    GoError :=
  if req.Subject.CommonName = "" then
    some "certificate request cannot contain an empty common name"
  else if req.Subject.CommonName ≠ v then
    some ("certificate request does not contain the valid common name, got " ++
      req.Subject.CommonName ++ ", want " ++ v)
  else none

/-- The type `dnsNamesValidator`: the expected DNS names. -/
abbrev dnsNamesValidator := Slice String

/-- The method `dnsNamesValidator.Valid`. -/
def dnsNamesValidator.Valid (v : dnsNamesValidator) (req : CertificateRequest) : GoError :=
  let want := setOf v.toList
  let got := setOf req.DNSNames.toList
  if ¬ DeepEqual want got then
    some ("certificate request does not contain the valid DNS names - got " ++
      fmtSlice req.DNSNames.toList ++ ", want " ++ fmtSlice v.toList)
  else none

/-- The type `ipAddressesValidator`: the expected IP addresses. -/
abbrev ipAddressesValidator := Slice IP

/-- The method `ipAddressesValidator.Valid`. -/
def ipAddressesValidator.Valid (v : ipAddressesValidator) (req : CertificateRequest) :
    GoError :=
  let want := setOf (v.toList.map IP.String)
  let got := setOf (req.IPAddresses.toList.map IP.String)
  if ¬ DeepEqual want got then
    some ("IP Addresses claim failed - got " ++
      fmtSlice (req.IPAddresses.toList.map IP.String) ++ ", want " ++
      fmtSlice (v.toList.map IP.String))
  else none

/-! ## ASN.1 encoding of the provisioner structure -/

/-- The struct `stepProvisionerASN1` (`Typ` is its field `Type`). -/
structure stepProvisionerASN1 where
  Typ : Int
  Name : List Nat
  CredentialID : List Nat
deriving DecidableEq, Repr

/-- The UTF-8 bytes of one character. -/
def utf8EncodeChar (c : Char) : List Nat :=
  let v := c.toNat
  if v ≤ 0x7f then [v]
  else if v ≤ 0x7ff then [0xc0 + v / 64, 0x80 + v % 64]
  else if v ≤ 0xffff then [0xe0 + v / 4096, 0x80 + v / 64 % 64, 0x80 + v % 64]
  else [0xf0 + v / 262144, 0x80 + v / 4096 % 64, 0x80 + v / 64 % 64, 0x80 + v % 64]

/-- The conversion `[]byte(s)`. -/
def bytesOf (s : String) : List Nat := s.data.flatMap utf8EncodeChar

/-- The loops of `int64Length` in `encoding/asn1`: one more byte for each shift by 8 bits
while the value is above 127 or below -128. -/
def int64LengthAux : Nat → Int → Nat
  | 0, _ => 1
  | fuel + 1, i => if i > 127 ∨ i < -128 then 1 + int64LengthAux fuel (i / 256) else 1

/-- The function `int64Length` of `encoding/asn1`. -/
def int64Length (i : Int) : Nat := int64LengthAux i.natAbs i

/-- The method `int64Encoder.Encode`: big-endian two's complement on `int64Length` bytes. -/
def int64Encode (i : Int) : List Nat :=
  let n := int64Length i
  (List.range n).map fun j => (i / 2 ^ ((n - 1 - j) * 8) % 256).toNat

/-- The loop of `lengthLength` in `encoding/asn1`. -/
def lengthLengthAux : Nat → Nat → Nat
  | 0, _ => 1
  | fuel + 1, i => if i > 255 then 1 + lengthLengthAux fuel (i / 256) else 1

/-- The function `lengthLength` of `encoding/asn1`. -/
def lengthLength (i : Nat) : Nat := lengthLengthAux i i

/-- The function `appendLength` of `encoding/asn1`: the length in base 256. -/
def appendLength (i : Nat) : List Nat :=
  let n := lengthLength i
  (List.range n).map fun j => i / 2 ^ ((n - 1 - j) * 8) % 256

/-- The function `appendTagAndLength` of `encoding/asn1`, for a tag below 31 already
combined with its class and compound bits into the identifier byte `b`. -/
def appendTagAndLength (b : Nat) (length : Nat) : List Nat :=
  if length ≥ 128 then
    b :: (0x80 ||| lengthLength length % 256) :: appendLength length
  else [b, length]

/-- One tag-length-value element. -/
def tlv (b : Nat) (content : List Nat) : List Nat :=
  appendTagAndLength b content.length ++ content

/-- The function `asn1.Marshal` on a `stepProvisionerASN1`: a SEQUENCE of an INTEGER
and two OCTET STRINGs. The error is always `nil`: the encoder has an encoding for every
`int` and every byte slice, and all three fields are exported and untagged. -/
def Marshal (x : stepProvisionerASN1) : List Nat × GoError :=
  (tlv 0x30 (tlv 0x02 (int64Encode x.Typ) ++ tlv 0x04 x.Name ++ tlv 0x04 x.CredentialID),
    none)

/-! ## The provisioner extension option -/

/-- The package variable `stepOIDRoot`. -/
def stepOIDRoot : List Int := [1, 3, 6, 1, 4, 1, 37476, 9000, 64]

/-- The package variable `stepOIDProvisioner`:
`append(asn1.ObjectIdentifier(nil), append(stepOIDRoot, 1)...)`. -/
def stepOIDProvisioner : List Int := [] ++ (stepOIDRoot ++ [1])

/-- The struct `provisionerExtensionOption` (`Typ` is its field `Type`). -/
structure provisionerExtensionOption where
  Typ : Int
  Name : String
  CredentialID : String
deriving DecidableEq, Repr

/-- The function `newProvisionerExtensionOption`. -/
def newProvisionerExtensionOption (typ : Int) (name credentialID : String) :
    provisionerExtensionOption :=
  { Typ := typ, Name := name, CredentialID := credentialID }

/-- An `x509util.Profile`: the certificates its `Subject()` and `Issuer()` point to. -/
structure Profile where
  subject : Certificate
  issuer : Certificate
deriving DecidableEq, Repr

/-- An `x509util.WithOption`: a function that may modify the profile and returns an
error. -/
abbrev WithOption := Profile → Profile × GoError

/-- The body of `(*provisionerExtensionOption).Option`, over the marshaling function it
calls. -/
def provisionerExtensionOption.OptionWith (marshal : stepProvisionerASN1 → List Nat × GoError)
    (o : provisionerExtensionOption) : WithOption := fun p =>
  let crt := p.subject
  let r := marshal
    { Typ := o.Typ, Name := bytesOf o.Name, CredentialID := bytesOf o.CredentialID }
  match r.2 with
  | some err => (p, some ("error marshaling provisioner extension: " ++ err))
  | none =>
    let ext : Extension := { Id := stepOIDProvisioner, Critical := false, Value := r.1 }
    ({ p with subject := { crt with ExtraExtensions := crt.ExtraExtensions.append ext } },
      none)

/-- The method `(*provisionerExtensionOption).Option`. -/
def provisionerExtensionOption.Option (o : provisionerExtensionOption) : WithOption :=
  provisionerExtensionOption.OptionWith Marshal o

/-! ## Dispatch through the validator interfaces -/

/-- The validators of the file, as the dynamic types a `CertificateRequestValidator` or
`CertificateValidator` interface value can hold. -/
inductive Validator where
  | emailOnlyIdentity (e : emailOnlyIdentity)
  | commonNameValidator (v : commonNameValidator)
  | dnsNamesValidator (v : dnsNamesValidator)
  | ipAddressesValidator (v : ipAddressesValidator)
  | validityValidator (v : validityValidator)
deriving DecidableEq, Repr

/-- One invocation of the interface method `Valid`: a request validator is run on the
request `req`, a certificate validator on the certificate `crt`; `now` is the reading of
the clock during the invocation. -/
def Validator.Valid (f : Fmt) (now : Time) :
    Validator → CertificateRequest → Certificate → GoError
  | .emailOnlyIdentity e, req, _ => emailOnlyIdentity.Valid e req
  | .commonNameValidator v, req, _ => commonNameValidator.Valid v req
  | .dnsNamesValidator v, req, _ => dnsNamesValidator.Valid v req
  | .ipAddressesValidator v, req, _ => ipAddressesValidator.Valid v req
  | .validityValidator v, _, crt => validityValidator.Valid f now v crt

/-! ## Concrete values used in the examples -/

/-- A formatter that prints the nanosecond counts in decimal. -/
def plainFmt : Fmt :=
  { time := fun t => toString t.ns, duration := fun d => toString d ++ "ns" }

/-- A certificate with the given validity bounds (in nanoseconds) and nothing else. -/
def certWith (notBefore notAfter : Int) : Certificate :=
  { Subject := { CommonName := "", Organization := Slice.nil },
    NotBefore := ⟨notBefore⟩, NotAfter := ⟨notAfter⟩,
    DNSNames := Slice.nil, EmailAddresses := Slice.nil, IPAddresses := Slice.nil,
    URIs := Slice.nil, Extensions := Slice.nil, ExtraExtensions := Slice.nil }

/-- A request with the given common name and subject alternative names. -/
def requestWith (cn : String) (dns emails : Slice String) (ips : Slice IP)
    (uris : Slice URL) : CertificateRequest :=
  { Subject := { CommonName := cn, Organization := Slice.nil },
    DNSNames := dns, EmailAddresses := emails, IPAddresses := ips, URIs := uris,
    ExtraExtensions := Slice.nil }

/-- The validator of the test provisioner: between 5 minutes and 24 hours. -/
def testValidity : validityValidator := { min := 5 * Minute, max := 24 * Hour }

/-- A clock reading, 100 hours after the epoch. -/
def testNow : Time := ⟨100 * Hour⟩

/-- The invariant of the maps the validators build: keys are distinct and every value is
`true`. -/
structure BoolMap.IsSet (m : BoolMap) : Prop where
  nodup : m.keys.Nodup
  allTrue : ∀ kv ∈ m.entries, kv.2 = true

/-- An extension already present in a certificate (basic constraints, critical). -/
def otherExtension : Extension := { Id := [2, 5, 29, 19], Critical := true, Value := [48, 0] }

/-- A certificate valid for one hour that already carries `otherExtension`. -/
def testCert : Certificate :=
  { certWith 0 Hour with ExtraExtensions := Slice.mk [otherExtension] }

/-- A profile whose subject is the given certificate, with an empty issuer. -/
def profileOf (crt : Certificate) : Profile := { subject := crt, issuer := certWith 0 0 }

/-- The option of the test provisioner. -/
def testOption : provisionerExtensionOption :=
  newProvisionerExtensionOption 6 "test@acme-provisioner.com" ""

/-! ## Values used by the later examples -/

/-- The constant `v4InV6Prefix` of package `net`: the prefix of an IPv4-mapped address. -/
def v4InV6Prefix : List Nat := [0, 0, 0, 0, 0, 0, 0, 0, 0, 0, 0xff, 0xff]

/-- The function `net.IPv4`: the 16-byte form of the IPv4 address `a.b.c.d`. -/
def IPv4 (a b c d : Nat) : IP := v4InV6Prefix ++ [a, b, c, d]

/-- The other byte representation of the same IPv4 address: the 16-byte IPv4-mapped form
of a 4-byte address, the 4-byte form of an IPv4-mapped address; any other value is left
as it is. -/
def IP.otherForm (ip : IP) : IP :=
  if ip.length = IPv4len then v4InV6Prefix ++ ip
  else if (IP.To4 ip).length = IPv4len then IP.To4 ip
  else ip

/-- A marshaling function that always fails, to exercise the error branch of the option. -/
def failingMarshal : stepProvisionerASN1 → List Nat × GoError :=
  fun _ => ([], some "asn1: structure error: unknown Go type")

/-- A validator whose minimum is above its maximum. -/
def invertedValidity : validityValidator := { min := 24 * Hour, max := 5 * Minute }

/-! ## The credential-less provisioner

The provisioner itself (`ACME`, its `Init` and `AuthorizeSign`, the claimer, the method of
the authorization context) is not part of `sign_options.go`; it is modelled here from the
specification and from the values its test reads. -/

/-- Modelled from the spec: the method declared by the authorization context, a numeric
discriminant (the file that declares `Method` is missing). -/
abbrev Method := Int

/-- Modelled from the spec: the method `Sign`, first of the enumeration. -/
def SignMethod : Method := 0

/-- Modelled from the spec: the method `SignSSH`, printed as `1` by the test. -/
def SignSSHMethod : Method := 1

/-- Modelled from the spec: the type code of the credential-less provisioner, the value
the test reads in the extension option (the declaration of `TypeACME` is missing). -/
def TypeACME : Int := 6

/-- Modelled from the spec: the per-provisioner claims (the declaration of `Claims` is
missing); an absent field inherits the global default. -/
structure Claims where
  DefaultCertDuration : Option Int
  MinCertDuration : Option Int
  MaxCertDuration : Option Int
  DisableRenewal : Option Bool
deriving DecidableEq, Repr

/-- Modelled from the spec: the global default claims, with every field present (the
declaration is missing). -/
structure GlobalClaims where
  DefaultCertDuration : Int
  MinCertDuration : Int
  MaxCertDuration : Int
  DisableRenewal : Bool
deriving DecidableEq, Repr

/-- Modelled from the spec: the claimer (its declaration is missing), which owns the
resolved claims of one provisioner; the fields are the values its four queries return. -/
structure Claimer where
  DefaultTLSCertDuration : Int
  MinTLSCertDuration : Int
  MaxTLSCertDuration : Int
  IsRenewalDisabled : Bool
deriving DecidableEq, Repr

/-- Modelled from the spec: the merge rule of `NewClaimer` (missing from the sources): for
each field the override if present, else the global default. -/
def mergeClaims (override : Option Claims) (globalDefault : GlobalClaims) : Claimer :=
  match override with
  | none =>
    { DefaultTLSCertDuration := globalDefault.DefaultCertDuration,
      MinTLSCertDuration := globalDefault.MinCertDuration,
      MaxTLSCertDuration := globalDefault.MaxCertDuration,
      IsRenewalDisabled := globalDefault.DisableRenewal }
  | some c =>
    { DefaultTLSCertDuration := c.DefaultCertDuration.getD globalDefault.DefaultCertDuration,
      MinTLSCertDuration := c.MinCertDuration.getD globalDefault.MinCertDuration,
      MaxTLSCertDuration := c.MaxCertDuration.getD globalDefault.MaxCertDuration,
      IsRenewalDisabled := c.DisableRenewal.getD globalDefault.DisableRenewal }

/-- Modelled from the spec: the function `NewClaimer` (missing from the sources): merge,
then check the bounds `Default > 0`, `Min ≤ Default ≤ Max` and `Min > 0`; a violation is an
error that names the failed bound. Only the text for the default duration is fixed by the
spec and the test. -/
def NewClaimer (override : Option Claims) (globalDefault : GlobalClaims) :
    Except String Claimer :=
  let c := mergeClaims override globalDefault
  if c.DefaultTLSCertDuration ≤ 0 then
    Except.error "claims: DefaultTLSCertDuration must be greater than 0"
  else if c.DefaultTLSCertDuration < c.MinTLSCertDuration then
    Except.error "claims: DefaultTLSCertDuration cannot be less than MinTLSCertDuration"
  else if c.MaxTLSCertDuration < c.DefaultTLSCertDuration then
    Except.error "claims: MaxTLSCertDuration cannot be less than DefaultTLSCertDuration"
  else if c.MinTLSCertDuration ≤ 0 then
    Except.error "claims: MinTLSCertDuration must be greater than 0"
  else Except.ok c

/-- Modelled from the spec: the configuration handed to `Init` (its declaration is
missing), reduced to the global default claims. -/
structure Config where
  Claims : GlobalClaims
deriving DecidableEq, Repr

/-- Modelled from the spec: the credential-less provisioner `ACME` (its declaration is
missing): type, name, optional claims, and the claimer that `Init` binds (`Typ` is its
field `Type`). -/
structure ACME where
  Typ : String
  Name : String
  Claims : Option Claims
  claimer : Option Claimer
deriving DecidableEq, Repr

/-- Modelled from the spec: the method `ACME.Init` (missing from the sources): fails when
the type is empty, when the name is empty, or when the claimer cannot be built; success
binds the claimer. The result is the provisioner after the call and the error. -/
def ACME.Init (p : ACME) (config : Config) : ACME × GoError :=
  if p.Typ = "" then (p, some "provisioner type cannot be empty")
  else if p.Name = "" then (p, some "provisioner name cannot be empty")
  else
    match NewClaimer p.Claims config.Claims with
    | Except.ok c => ({ p with claimer := some c }, none)
    | Except.error err => (p, some err)

/-- Modelled from the spec: the values of the interface `SignOption` that the provisioner
hands to the signing engine; `profileDefaultDuration` and `defaultPublicKeyValidator` are
declared in files that are missing, the others in `sign_options.go`. -/
inductive SignOption where
  | profileDefaultDuration (d : Int)
  | provisionerExtensionOption (o : provisionerExtensionOption)
  | validator (v : Validator)
  | defaultPublicKeyValidator
deriving DecidableEq, Repr

/-- Modelled from the spec: the method `ACME.AuthorizeSign` (missing from the sources). A
method other than `Sign` is refused before anything is built; otherwise the four options
are returned in their fixed order. The result is `none` for a provisioner whose claimer
was never bound, which the spec calls unusable and for which it fixes no result. -/
def ACME.AuthorizeSign (p : ACME) (method : Method) (_credential : String) :
    Option (Slice SignOption × GoError) :=
  if method ≠ SignMethod then
    some (Slice.nil, some ("unexpected method type " ++ toString method ++ " in context"))
  else
    match p.claimer with
    | none => none
    | some c =>
      some (Slice.mk [
        SignOption.profileDefaultDuration c.DefaultTLSCertDuration,
        SignOption.provisionerExtensionOption (newProvisionerExtensionOption TypeACME p.Name ""),
        SignOption.validator
          (Validator.validityValidator ⟨c.MinTLSCertDuration, c.MaxTLSCertDuration⟩),
        SignOption.defaultPublicKeyValidator], none)

/-- Modelled from the spec: the global claims of the test (`globalProvisionerClaims`, whose
declaration is missing): the values the test reads back are 5 minutes, 24 hours and a
default of 24 hours. -/
def globalProvisionerClaims : GlobalClaims :=
  { DefaultCertDuration := 24 * Hour, MinCertDuration := 5 * Minute,
    MaxCertDuration := 24 * Hour, DisableRenewal := false }

/-- Modelled from the spec: the provisioner of the test before `Init` (`generateACME` is
missing): the name is the one the test reads in the extension option. -/
def testACME : ACME :=
  { Typ := "ACME", Name := "test@acme-provisioner.com", Claims := none, claimer := none }

/-! ## Decoding the provisioner extension

`sign_options.go` only encodes the extension. The decoder is modelled from the
specification: a DER-style tag-length-value SEQUENCE of an INTEGER and two OCTET STRINGs,
in that order. -/

/-- Modelled from the spec: the length octets of a tag-length-value element (the decoder is
missing from the sources). A first octet below 128 is the length; otherwise its low seven
bits count the octets of the length in base 256, which DER wants without leading zero and
only for a length of 128 or more. The result is the length and the remaining bytes. -/
def parseLength : List Nat → Option (Nat × List Nat)
  | [] => none
  | l :: rest =>
    if l < 128 then some (l, rest)
    else
      let numBytes := l % 128
      if numBytes = 0 ∨ rest.length < numBytes then none
      else
        let len := (rest.take numBytes).foldl (fun acc b => acc * 256 + b) 0
        if rest.headD 0 = 0 ∨ len < 128 then none
        else some (len, rest.drop numBytes)

/-- Modelled from the spec: one tag-length-value element with the expected identifier octet
(the decoder is missing from the sources). The result is the content and the bytes that
follow the element. -/
def parseElement (tag : Nat) : List Nat → Option (List Nat × List Nat)
  | [] => none
  | b :: rest =>
    if b ≠ tag then none
    else
      match parseLength rest with
      | none => none
      | some (len, rest') =>
        if rest'.length < len then none else some (rest'.take len, rest'.drop len)

/-- Modelled from the spec: the value of the first octet of an INTEGER, read as a signed
byte (the decoder is missing from the sources). -/
def signExtend (b : Nat) : Int := if b ≥ 128 then (b : Int) - 256 else (b : Int)

/-- Modelled from the spec: the content of an INTEGER, big-endian two's complement (the
decoder is missing from the sources). DER refuses an empty content and a first octet that
only repeats the sign of the second. -/
def parseInteger : List Nat → Option Int
  | [] => none
  | [b] => some (signExtend b)
  | b0 :: b1 :: rest =>
    if (b0 = 0 ∧ b1 < 128) ∨ (b0 = 255 ∧ b1 ≥ 128) then none
    else some ((b1 :: rest).foldl (fun (acc : Int) (b : Nat) => acc * 256 + (b : Int))
      (signExtend b0))

/-- Modelled from the spec: the decoder of the provisioner extension (missing from the
sources): a SEQUENCE that holds exactly an INTEGER and two OCTET STRINGs, in that order.
The result is the decoded structure and the bytes that follow the SEQUENCE. -/
def Unmarshal (bytes : List Nat) : Option (stepProvisionerASN1 × List Nat) :=
  match parseElement 0x30 bytes with
  | none => none
  | some (body, rest) =>
    match parseElement 0x02 body with
    | none => none
    | some (typ, r1) =>
      match parseInteger typ, parseElement 0x04 r1 with
      | some i, some (name, r2) =>
        match parseElement 0x04 r2 with
        | some (cred, []) => some (⟨i, name, cred⟩, rest)
        | _ => none
      | _, _ => none

/-- The `k` low digits of `n` in base 256, most significant first. -/
def base256 : Nat → Nat → List Nat
  | 0, _ => []
  | k + 1, n => base256 k (n / 256) ++ [n % 256]

/-- The `k` low octets of the two's complement form of `i`, most significant first. -/
def base256Int : Nat → Int → List Nat
  | 0, _ => []
  | k + 1, i => base256Int k (i / 256) ++ [(i % 256).toNat]

/-! ## Auxiliary facts -/

/-- Two texts that differ within their first `n` characters are different. -/
theorem ne_of_take_ne (n : Nat) {s t : String} (h : s.data.take n ≠ t.data.take n) :
    s ≠ t := by
  intro e
  exact h (by rw [e])

/-- The method `Before` is the strict order of the instants. -/
theorem Time.Before_iff (t u : Time) : t.Before u = true ↔ t.ns < u.ns := by
  simp [Time.Before]

/-- A slice has length zero exactly when it has no element. -/
theorem Slice.len_eq_zero {α : Type} (s : Slice α) : s.len = 0 ↔ s.toList = [] := by
  simp [Slice.len]

/-! ### The maps built by the SAN validators -/

/-- The keys after writing `k`: unchanged when `k` is present, else `k` is added last. -/
theorem keys_setEntry (l : List (String × Bool)) (k : String) (b : Bool) :
    (setEntry l k b).map Prod.fst =
      if k ∈ l.map Prod.fst then l.map Prod.fst else l.map Prod.fst ++ [k] := by
  induction l with
  | nil => simp [setEntry]
  | cons hd t ih =>
    obtain ⟨k', b'⟩ := hd
    by_cases h : k' = k
    · simp [setEntry, h]
    · have h' : ¬ k = k' := fun e => h e.symm
      by_cases hm : k ∈ t.map Prod.fst
      · simp only [setEntry, h, if_false, List.map_cons, ih, hm, if_true, List.mem_cons,
          or_true]
      · simp only [setEntry, h, if_false, List.map_cons, ih, hm, List.mem_cons, h',
          or_self, List.cons_append]

/-- Writing `true` keeps every value `true`. -/
theorem values_setEntry (l : List (String × Bool)) (k : String)
    (h : ∀ kv ∈ l, kv.2 = true) : ∀ kv ∈ setEntry l k true, kv.2 = true := by
  induction l with
  | nil => simp [setEntry]
  | cons hd t ih =>
    obtain ⟨k', b'⟩ := hd
    have ht : ∀ kv ∈ t, kv.2 = true := fun kv hkv => h kv (List.mem_cons_of_mem _ hkv)
    by_cases hk : k' = k
    · intro kv hkv
      simp only [setEntry, hk, if_true, List.mem_cons] at hkv
      rcases hkv with e | e
      · rw [e]
      · exact ht kv e
    · intro kv hkv
      simp only [setEntry, hk, if_false, List.mem_cons] at hkv
      rcases hkv with e | e
      · rw [e]; exact h (k', b') (List.mem_cons_self _ _)
      · exact ih ht kv e

/-- The assignment `m[k] = true` preserves the invariant. -/
theorem BoolMap.IsSet.set {m : BoolMap} (h : m.IsSet) (k : String) :
    (m.set k true).IsSet := by
  constructor
  · have hk := keys_setEntry m.entries k true
    unfold BoolMap.keys BoolMap.set
    simp only [hk]
    have hn := h.nodup
    unfold BoolMap.keys at hn
    split
    · exact hn
    · rename_i hmem
      exact List.Nodup.append hn (List.nodup_singleton k) (by simpa using hmem)
  · exact values_setEntry m.entries k h.allTrue

/-- The keys after the assignment `m[k] = true`. -/
theorem BoolMap.mem_keys_set (m : BoolMap) (k x : String) :
    x ∈ (m.set k true).keys ↔ x ∈ m.keys ∨ x = k := by
  unfold BoolMap.keys BoolMap.set
  simp only [keys_setEntry]
  split
  · rename_i hk
    constructor
    · exact Or.inl
    · rintro (h | h)
      · exact h
      · rw [h]; exact hk
  · simp

/-- The loop that fills a map keeps the invariant and adds exactly the visited keys. -/
theorem foldl_set_spec (xs : List String) (m : BoolMap) (h : m.IsSet) :
    (xs.foldl (fun m s => m.set s true) m).IsSet ∧
      ∀ x, x ∈ (xs.foldl (fun m s => m.set s true) m).keys ↔ x ∈ m.keys ∨ x ∈ xs := by
  induction xs generalizing m with
  | nil => simp [h]
  | cons a t ih =>
    have hstep := ih (m.set a true) (h.set a)
    refine ⟨hstep.1, fun x => ?_⟩
    rw [List.foldl_cons, hstep.2 x, BoolMap.mem_keys_set]
    simp only [List.mem_cons]
    tauto

/-- The fresh map satisfies the invariant. -/
theorem make_isSet : BoolMap.make.IsSet :=
  ⟨by simp [BoolMap.keys, BoolMap.make], by simp [BoolMap.make]⟩

/-- The map built from a list satisfies the invariant. -/
theorem setOf_isSet (xs : List String) : (setOf xs).IsSet :=
  (foldl_set_spec xs BoolMap.make make_isSet).1

/-- The keys of the map built from a list are the members of the list. -/
theorem mem_keys_setOf (xs : List String) (x : String) : x ∈ (setOf xs).keys ↔ x ∈ xs := by
  have hx := (foldl_set_spec xs BoolMap.make make_isSet).2 x
  unfold setOf
  rw [hx]
  simp [BoolMap.keys, BoolMap.make]

/-- In a list of entries whose values are all `true`, looking a key up finds `true`
exactly when the key is present. -/
theorem lookup_of_allTrue (l : List (String × Bool)) (h : ∀ kv ∈ l, kv.2 = true)
    (k : String) : l.lookup k = some true ↔ k ∈ l.map Prod.fst := by
  induction l with
  | nil => simp
  | cons hd t ih =>
    obtain ⟨k', b'⟩ := hd
    have hb : b' = true := h (k', b') (List.mem_cons_self _ _)
    have ht : ∀ kv ∈ t, kv.2 = true := fun kv hkv => h kv (List.mem_cons_of_mem _ hkv)
    by_cases hk : k = k'
    · subst hk
      simp [List.lookup, hb]
    · have hbeq : (k == k') = false := by simpa using hk
      simp [List.lookup, hbeq, ih ht, hk]

/-- On two maps that satisfy the invariant, `reflect.DeepEqual` holds exactly when they
have the same keys. -/
theorem DeepEqual_iff {a b : BoolMap} (ha : a.IsSet) (hb : b.IsSet) :
    DeepEqual a b = true ↔ ∀ x, x ∈ a.keys ↔ x ∈ b.keys := by
  have hsub : (a.entries.all fun kv => b.get? kv.1 == some kv.2) = true ↔
      ∀ x ∈ a.keys, x ∈ b.keys := by
    simp only [List.all_eq_true, beq_iff_eq, BoolMap.keys, List.mem_map, BoolMap.get?]
    constructor
    · rintro h x ⟨kv, hkv, rfl⟩
      have hlook := h kv hkv
      rw [ha.allTrue kv hkv] at hlook
      exact List.mem_map.1 ((lookup_of_allTrue b.entries hb.allTrue kv.1).1 hlook)
    · intro h kv hkv
      rw [ha.allTrue kv hkv]
      exact (lookup_of_allTrue b.entries hb.allTrue kv.1).2
        (List.mem_map.2 (h kv.1 ⟨kv, hkv, rfl⟩))
  have hlen : ∀ m : BoolMap, m.len = m.keys.length := fun m => by
    simp [BoolMap.len, BoolMap.keys]
  unfold DeepEqual
  rw [Bool.and_eq_true, hsub, beq_iff_eq, hlen, hlen]
  constructor
  · rintro ⟨hl, hs⟩ x
    refine ⟨hs x, fun hx => ?_⟩
    have hp : a.keys.Perm b.keys :=
      (List.subperm_of_subset ha.nodup hs).perm_of_length_le (le_of_eq hl.symm)
    exact hp.symm.subset hx
  · intro h
    have hp : a.keys.Perm b.keys := (List.perm_ext_iff_of_nodup ha.nodup hb.nodup).2 h
    exact ⟨hp.length_eq, fun x hx => (h x).1 hx⟩

/-- The two maps a SAN validator builds are deeply equal exactly when the two lists have
the same members. -/
theorem DeepEqual_setOf (xs ys : List String) :
    DeepEqual (setOf xs) (setOf ys) = true ↔ ∀ x, x ∈ xs ↔ x ∈ ys := by
  rw [DeepEqual_iff (setOf_isSet xs) (setOf_isSet ys)]
  simp only [mem_keys_setOf]

/-! ## validityValidator -/

/-- C1. `validityValidator.Valid` returns an error if and only if `NotAfter` is before the
clock reading, or `NotAfter` is before `NotBefore`, or the duration `d = NotAfter.Sub(NotBefore)`
is below `min` or above `max`; in particular it returns `nil` when `NotAfter` is not before
the clock reading, `NotBefore` is not after `NotAfter` and `min ≤ d ≤ max` (both bounds
inclusive). The duration `d` is the exact difference of the two instants whenever that
difference fits a `time.Duration`, and the equivalence holds with the exact difference in
place of `d` for every `max` below the largest `time.Duration`. -/
theorem validityValidator_Valid_error_iff (f : Fmt) (now : Time)
    (v : validityValidator) (crt : Certificate) :
    ((validityValidator.Valid f now v crt).isSome = true ↔
      (crt.NotAfter.ns < now.ns ∨ crt.NotAfter.ns < crt.NotBefore.ns ∨
        crt.NotAfter.Sub crt.NotBefore < v.min ∨ crt.NotAfter.Sub crt.NotBefore > v.max)) ∧
    (now.ns ≤ crt.NotAfter.ns → crt.NotBefore.ns ≤ crt.NotAfter.ns →
      v.min ≤ crt.NotAfter.Sub crt.NotBefore → crt.NotAfter.Sub crt.NotBefore ≤ v.max →
      validityValidator.Valid f now v crt = none) ∧
    (minDuration ≤ crt.NotAfter.ns - crt.NotBefore.ns →
      crt.NotAfter.ns - crt.NotBefore.ns ≤ maxDuration →
      crt.NotAfter.Sub crt.NotBefore = crt.NotAfter.ns - crt.NotBefore.ns) ∧
    (v.min ≤ maxDuration → v.max < maxDuration →
      ((validityValidator.Valid f now v crt).isSome = true ↔
        (crt.NotAfter.ns < now.ns ∨ crt.NotAfter.ns < crt.NotBefore.ns ∨
          crt.NotAfter.ns - crt.NotBefore.ns < v.min ∨
          crt.NotAfter.ns - crt.NotBefore.ns > v.max))) := by
  have hiff : (validityValidator.Valid f now v crt).isSome = true ↔
      (crt.NotAfter.ns < now.ns ∨ crt.NotAfter.ns < crt.NotBefore.ns ∨
        crt.NotAfter.Sub crt.NotBefore < v.min ∨ crt.NotAfter.Sub crt.NotBefore > v.max) := by
    unfold validityValidator.Valid
    simp only [Time.Before_iff]
    by_cases h1 : crt.NotAfter.ns < now.ns
    · simp [h1]
    · by_cases h2 : crt.NotAfter.ns < crt.NotBefore.ns
      · simp [h1, h2]
      · by_cases h3 : crt.NotAfter.Sub crt.NotBefore < v.min
        · simp [h1, h2, h3]
        · by_cases h4 : crt.NotAfter.Sub crt.NotBefore > v.max
          · simp [h1, h2, h3, h4]
          · simp [h1, h2, h3, h4]
  refine ⟨hiff, ?_, ?_, ?_⟩
  · intro h1 h2 h3 h4
    unfold validityValidator.Valid
    simp only [Time.Before_iff]
    simp [not_lt.mpr h1, not_lt.mpr h2, not_lt.mpr h3, not_lt.mpr h4]
  · intro h1 h2
    unfold Time.Sub
    simp [not_lt.mpr h1, not_lt.mpr h2]
  · intro hmin hmax
    rw [hiff]
    have hmd : minDuration < 0 := by decide
    have hsub : crt.NotAfter.Sub crt.NotBefore =
        if crt.NotAfter.ns - crt.NotBefore.ns < minDuration then minDuration
        else if maxDuration < crt.NotAfter.ns - crt.NotBefore.ns then maxDuration
        else crt.NotAfter.ns - crt.NotBefore.ns := rfl
    by_cases h1 : crt.NotAfter.ns < now.ns
    · simp [h1]
    · by_cases h2 : crt.NotAfter.ns < crt.NotBefore.ns
      · simp [h2]
      · have hlo : ¬ crt.NotAfter.ns - crt.NotBefore.ns < minDuration := by omega
        simp only [h1, h2, false_or]
        by_cases h3 : maxDuration < crt.NotAfter.ns - crt.NotBefore.ns
        · rw [hsub]
          simp only [hlo, h3, if_false, if_true]
          constructor
          · rintro (h | h)
            · omega
            · right; omega
          · rintro (h | h)
            · omega
            · right; omega
        · rw [hsub]
          simp only [hlo, h3, if_false]

/-- C1, on the validator with `min = 5m`, `max = 24h` and the clock at hour 100: a
duration of one hour is accepted; `NotAfter` in the past, `NotAfter` before `NotBefore`,
a duration of one minute and a duration of 48 hours are rejected. -/
theorem validityValidator_Valid_error_iff_witness :
    validityValidator.Valid plainFmt testNow testValidity
        (certWith (100 * Hour) (101 * Hour)) = none ∧
    (validityValidator.Valid plainFmt testNow testValidity
        (certWith (90 * Hour) (99 * Hour))).isSome = true ∧
    (validityValidator.Valid plainFmt testNow testValidity
        (certWith (102 * Hour) (101 * Hour))).isSome = true ∧
    (validityValidator.Valid plainFmt testNow testValidity
        (certWith (100 * Hour) (100 * Hour + 1 * Minute))).isSome = true ∧
    (validityValidator.Valid plainFmt testNow testValidity
        (certWith (100 * Hour) (148 * Hour))).isSome = true :=
  ⟨(validityValidator_Valid_error_iff plainFmt testNow testValidity
      (certWith (100 * Hour) (101 * Hour))).2.1
      (by decide) (by decide) (by decide) (by decide),
    (validityValidator_Valid_error_iff plainFmt testNow testValidity
      (certWith (90 * Hour) (99 * Hour))).1.2 (Or.inl (by decide)),
    (validityValidator_Valid_error_iff plainFmt testNow testValidity
      (certWith (102 * Hour) (101 * Hour))).1.2 (Or.inr (Or.inl (by decide))),
    (validityValidator_Valid_error_iff plainFmt testNow testValidity
      (certWith (100 * Hour) (100 * Hour + 1 * Minute))).1.2
      (Or.inr (Or.inr (Or.inl (by decide)))),
    (validityValidator_Valid_error_iff plainFmt testNow testValidity
      (certWith (100 * Hour) (148 * Hour))).1.2 (Or.inr (Or.inr (Or.inr (by decide))))⟩

/-- The four messages of `validityValidator.Valid` are pairwise different, whatever the
printed times and durations are. -/
theorem validity_messages_distinct (a b c d e : String) :
    "NotAfter: " ++ a ++ " cannot be in the past" ≠
      "NotAfter: " ++ a ++ " cannot be before NotBefore: " ++ b ∧
    "NotAfter: " ++ a ++ " cannot be in the past" ≠
      "requested duration of " ++ c ++
        " is less than the authorized minimum certificate duration of " ++ d ∧
    "NotAfter: " ++ a ++ " cannot be in the past" ≠
      "requested duration of " ++ c ++
        " is more than the authorized maximum certificate duration of " ++ e ∧
    "NotAfter: " ++ a ++ " cannot be before NotBefore: " ++ b ≠
      "requested duration of " ++ c ++
        " is less than the authorized minimum certificate duration of " ++ d ∧
    "NotAfter: " ++ a ++ " cannot be before NotBefore: " ++ b ≠
      "requested duration of " ++ c ++
        " is more than the authorized maximum certificate duration of " ++ e ∧
    "requested duration of " ++ c ++
        " is less than the authorized minimum certificate duration of " ++ d ≠
      "requested duration of " ++ c ++
        " is more than the authorized maximum certificate duration of " ++ e := by
  refine ⟨?_, ?_, ?_, ?_, ?_, ?_⟩
  · intro h
    have h1 := congrArg String.data h
    simp only [String.data_append, List.append_assoc] at h1
    have h2 := congrArg (List.take 12) (List.append_cancel_left (List.append_cancel_left h1))
    simp at h2
  · exact ne_of_take_ne 1 (by simp)
  · exact ne_of_take_ne 1 (by simp)
  · exact ne_of_take_ne 1 (by simp)
  · exact ne_of_take_ne 1 (by simp)
  · intro h
    have h1 := congrArg String.data h
    simp only [String.data_append, List.append_assoc] at h1
    have h2 := congrArg (List.take 5) (List.append_cancel_left (List.append_cancel_left h1))
    simp at h2

/-- C2. When `validityValidator.Valid` rejects, the message is that of the first failing
check in the order expiry, inversion, too short, too long: an expired certificate gets
the expiry message whatever else fails; a certificate that is not expired but inverted
gets the inversion message whatever its duration; a certificate that passes both and is
shorter than `min` gets the too-short message; one that passes the first three checks and
is longer than `max` gets the too-long message. -/
theorem validityValidator_Valid_first_failing_message (f : Fmt) (now : Time)
    (v : validityValidator) (crt : Certificate) :
    (crt.NotAfter.ns < now.ns →
      validityValidator.Valid f now v crt =
        some ("NotAfter: " ++ f.time crt.NotAfter ++ " cannot be in the past")) ∧
    (¬ crt.NotAfter.ns < now.ns → crt.NotAfter.ns < crt.NotBefore.ns →
      validityValidator.Valid f now v crt =
        some ("NotAfter: " ++ f.time crt.NotAfter ++ " cannot be before NotBefore: " ++
          f.time crt.NotBefore)) ∧
    (¬ crt.NotAfter.ns < now.ns → ¬ crt.NotAfter.ns < crt.NotBefore.ns →
      crt.NotAfter.Sub crt.NotBefore < v.min →
      validityValidator.Valid f now v crt =
        some ("requested duration of " ++ f.duration (crt.NotAfter.Sub crt.NotBefore) ++
          " is less than the authorized minimum certificate duration of " ++
          f.duration v.min)) ∧
    (¬ crt.NotAfter.ns < now.ns → ¬ crt.NotAfter.ns < crt.NotBefore.ns →
      ¬ crt.NotAfter.Sub crt.NotBefore < v.min → crt.NotAfter.Sub crt.NotBefore > v.max →
      validityValidator.Valid f now v crt =
        some ("requested duration of " ++ f.duration (crt.NotAfter.Sub crt.NotBefore) ++
          " is more than the authorized maximum certificate duration of " ++
          f.duration v.max)) := by
  refine ⟨?_, ?_, ?_, ?_⟩
  · intro h1
    simp [validityValidator.Valid, Time.Before, h1]
  · intro h1 h2
    simp [validityValidator.Valid, Time.Before, h1, h2]
  · intro h1 h2 h3
    simp [validityValidator.Valid, Time.Before, h1, h2, h3]
  · intro h1 h2 h3 h4
    simp [validityValidator.Valid, Time.Before, h1, h2, h3, h4]

/-- C2, on the validator with `min = 5m`, `max = 24h` and the clock at hour 100: a
certificate that is both expired and inverted gets the expiry message, and one that is
inverted and shorter than `min` gets the inversion message. -/
theorem validityValidator_Valid_first_failing_message_witness :
    ((certWith (99 * Hour) (98 * Hour)).NotAfter.ns < testNow.ns ∧
      (certWith (99 * Hour) (98 * Hour)).NotAfter.ns <
        (certWith (99 * Hour) (98 * Hour)).NotBefore.ns ∧
      validityValidator.Valid plainFmt testNow testValidity (certWith (99 * Hour) (98 * Hour)) =
        some ("NotAfter: " ++ plainFmt.time (certWith (99 * Hour) (98 * Hour)).NotAfter ++
          " cannot be in the past")) ∧
    ((certWith (102 * Hour) (101 * Hour)).NotAfter.ns <
        (certWith (102 * Hour) (101 * Hour)).NotBefore.ns ∧
      (certWith (102 * Hour) (101 * Hour)).NotAfter.Sub
        (certWith (102 * Hour) (101 * Hour)).NotBefore < testValidity.min ∧
      validityValidator.Valid plainFmt testNow testValidity (certWith (102 * Hour) (101 * Hour)) =
        some ("NotAfter: " ++ plainFmt.time (certWith (102 * Hour) (101 * Hour)).NotAfter ++
          " cannot be before NotBefore: " ++
          plainFmt.time (certWith (102 * Hour) (101 * Hour)).NotBefore)) :=
  ⟨⟨by decide, by decide,
      (validityValidator_Valid_first_failing_message plainFmt testNow testValidity
        (certWith (99 * Hour) (98 * Hour))).1 (by decide)⟩,
    ⟨by decide, by decide,
      (validityValidator_Valid_first_failing_message plainFmt testNow testValidity
        (certWith (102 * Hour) (101 * Hour))).2.1 (by decide) (by decide)⟩⟩

/-! ## Purity of the validators -/

/-- C3, refuted as stated: two invocations of `validityValidator.Valid` on the same
validator and the same certificate return different results when the clock has passed
`NotAfter` in between (accepted at hour 100, rejected at hour 102). -/
theorem Validator_Valid_depends_on_clock :
    ¬ (Validator.Valid plainFmt ⟨100 * Hour⟩ (Validator.validityValidator testValidity)
          (requestWith "" Slice.nil Slice.nil Slice.nil Slice.nil)
          (certWith (100 * Hour) (101 * Hour)) =
        Validator.Valid plainFmt ⟨102 * Hour⟩ (Validator.validityValidator testValidity)
          (requestWith "" Slice.nil Slice.nil Slice.nil Slice.nil)
          (certWith (100 * Hour) (101 * Hour))) := by
  simp [Validator.Valid, validityValidator.Valid, Time.Before, Time.Sub, certWith,
    testValidity, Hour, Minute, Second, minDuration, maxDuration]

/-- C3, amended. Two invocations of `Valid` on the same validator and the same request or
certificate return the same result (same acceptance, same message) whatever the clock
reads, for `emailOnlyIdentity`, `commonNameValidator`, `dnsNamesValidator` and
`ipAddressesValidator`; for `validityValidator` they do so whenever `NotAfter` is before
both clock readings or before neither. -/
theorem Validator_Valid_same_result (f : Fmt) (V : Validator) (req : CertificateRequest)
    (crt : Certificate) (now₁ now₂ : Time)
    (h : ∀ v, V = Validator.validityValidator v →
      (crt.NotAfter.ns < now₁.ns ↔ crt.NotAfter.ns < now₂.ns)) :
    Validator.Valid f now₁ V req crt = Validator.Valid f now₂ V req crt := by
  cases V with
  | emailOnlyIdentity e => rfl
  | commonNameValidator v => rfl
  | dnsNamesValidator v => rfl
  | ipAddressesValidator v => rfl
  | validityValidator v =>
    have hv := h v rfl
    simp only [Validator.Valid, validityValidator.Valid, Time.Before, hv]

/-- C3 amended, at a concrete input: the validator of the test provisioner gives the same
result at hour 100 and at hour 102 on a certificate that is valid until hour 103. -/
theorem Validator_Valid_same_result_witness :
    ((certWith (100 * Hour) (103 * Hour)).NotAfter.ns < (⟨100 * Hour⟩ : Time).ns ↔
      (certWith (100 * Hour) (103 * Hour)).NotAfter.ns < (⟨102 * Hour⟩ : Time).ns) ∧
    Validator.Valid plainFmt ⟨100 * Hour⟩ (Validator.validityValidator testValidity)
        (requestWith "" Slice.nil Slice.nil Slice.nil Slice.nil)
        (certWith (100 * Hour) (103 * Hour)) =
      Validator.Valid plainFmt ⟨102 * Hour⟩ (Validator.validityValidator testValidity)
        (requestWith "" Slice.nil Slice.nil Slice.nil Slice.nil)
        (certWith (100 * Hour) (103 * Hour)) :=
  ⟨by decide,
    Validator_Valid_same_result plainFmt (Validator.validityValidator testValidity)
      (requestWith "" Slice.nil Slice.nil Slice.nil Slice.nil)
      (certWith (100 * Hour) (103 * Hour)) ⟨100 * Hour⟩ ⟨102 * Hour⟩ (fun _ _ => by decide)⟩

/-! ## Request validators -/

/-- C4. `dnsNamesValidator(v).Valid(req)` returns `nil` if and only if the set of strings in
`req.DNSNames` equals the set of strings in `v`: order and repetitions are irrelevant, and
a `nil` slice and an empty slice both have no element. Every other request is rejected. -/
theorem dnsNamesValidator_Valid_iff_same_set (v : dnsNamesValidator)
    (req : CertificateRequest) :
    dnsNamesValidator.Valid v req = none ↔
      req.DNSNames.toList.toFinset = v.toList.toFinset := by
  have key := DeepEqual_setOf v.toList req.DNSNames.toList
  unfold dnsNamesValidator.Valid
  rw [List.toFinset.ext_iff]
  by_cases h : DeepEqual (setOf v.toList) (setOf req.DNSNames.toList) = true
  · simp only [h, not_true_eq_false, if_false, true_iff]
    exact fun x => ((key.1 h) x).symm
  · simp only [h, not_false_eq_true, if_true, reduceCtorEq, false_iff]
    exact fun hx => h (key.2 fun x => (hx x).symm)

/-- C4, on the expected names `a.com`, `b.com`: the request `[b.com, a.com]` is accepted,
the requests `[a.com]` and `[a.com, c.com]` are rejected; a repeated name changes nothing,
and the `nil` validator accepts the empty request. -/
theorem dnsNamesValidator_Valid_iff_same_set_witness :
    dnsNamesValidator.Valid (Slice.mk ["a.com", "b.com"])
        (requestWith "" (Slice.mk ["b.com", "a.com"]) Slice.nil Slice.nil Slice.nil) = none ∧
    dnsNamesValidator.Valid (Slice.mk ["a.com", "b.com"])
        (requestWith "" (Slice.mk ["a.com"]) Slice.nil Slice.nil Slice.nil) ≠ none ∧
    dnsNamesValidator.Valid (Slice.mk ["a.com", "b.com"])
        (requestWith "" (Slice.mk ["a.com", "c.com"]) Slice.nil Slice.nil Slice.nil) ≠ none ∧
    dnsNamesValidator.Valid (Slice.mk ["a.com", "b.com"])
        (requestWith "" (Slice.mk ["b.com", "a.com", "b.com"]) Slice.nil Slice.nil Slice.nil) =
      none ∧
    dnsNamesValidator.Valid Slice.nil
        (requestWith "" (Slice.mk []) Slice.nil Slice.nil Slice.nil) = none :=
  ⟨(dnsNamesValidator_Valid_iff_same_set _ _).2 (by decide),
    fun h => absurd ((dnsNamesValidator_Valid_iff_same_set _ _).1 h) (by decide),
    fun h => absurd ((dnsNamesValidator_Valid_iff_same_set _ _).1 h) (by decide),
    (dnsNamesValidator_Valid_iff_same_set _ _).2 (by decide),
    (dnsNamesValidator_Valid_iff_same_set _ _).2 (by decide)⟩

/-- C5. `ipAddressesValidator(v).Valid(req)` returns `nil` if and only if the set of
addresses in `req.IPAddresses` equals the set of addresses in `v`, an address being
identified by its text `ip.String()`: order and repetitions are irrelevant. Every other
request is rejected. -/
theorem ipAddressesValidator_Valid_iff_same_set (v : ipAddressesValidator)
    (req : CertificateRequest) :
    ipAddressesValidator.Valid v req = none ↔
      (req.IPAddresses.toList.map IP.String).toFinset =
        (v.toList.map IP.String).toFinset := by
  have key := DeepEqual_setOf (v.toList.map IP.String) (req.IPAddresses.toList.map IP.String)
  unfold ipAddressesValidator.Valid
  rw [List.toFinset.ext_iff]
  by_cases h : DeepEqual (setOf (v.toList.map IP.String))
      (setOf (req.IPAddresses.toList.map IP.String)) = true
  · simp only [h, not_true_eq_false, if_false, true_iff]
    exact fun x => ((key.1 h) x).symm
  · simp only [h, not_false_eq_true, if_true, reduceCtorEq, false_iff]
    exact fun hx => h (key.2 fun x => (hx x).symm)

/-- C5, on the expected addresses `10.0.0.1`, `10.0.0.2`: the request with the two
addresses in the other order, one of them repeated, is accepted; the request that lacks
`10.0.0.2` and the one with the extra `10.0.0.3` are rejected. -/
theorem ipAddressesValidator_Valid_iff_same_set_witness :
    ipAddressesValidator.Valid (Slice.mk [[10, 0, 0, 1], [10, 0, 0, 2]])
        (requestWith "" Slice.nil Slice.nil
          (Slice.mk [[10, 0, 0, 2], [10, 0, 0, 1], [10, 0, 0, 2]]) Slice.nil) = none ∧
    ipAddressesValidator.Valid (Slice.mk [[10, 0, 0, 1], [10, 0, 0, 2]])
        (requestWith "" Slice.nil Slice.nil (Slice.mk [[10, 0, 0, 1]]) Slice.nil) ≠ none ∧
    ipAddressesValidator.Valid (Slice.mk [[10, 0, 0, 1], [10, 0, 0, 2]])
        (requestWith "" Slice.nil Slice.nil
          (Slice.mk [[10, 0, 0, 1], [10, 0, 0, 2], [10, 0, 0, 3]]) Slice.nil) ≠ none :=
  ⟨(ipAddressesValidator_Valid_iff_same_set _ _).2 (by decide),
    fun h => absurd ((ipAddressesValidator_Valid_iff_same_set _ _).1 h) (by decide),
    fun h => absurd ((ipAddressesValidator_Valid_iff_same_set _ _).1 h) (by decide)⟩

/-- C6. `emailOnlyIdentity(e).Valid(req)` returns `nil` if and only if the request has no DNS
name, no IP address, no URI, and its list of email addresses is exactly `[e]`; every other
request is rejected. -/
theorem emailOnlyIdentity_Valid_iff (e : emailOnlyIdentity) (req : CertificateRequest) :
    emailOnlyIdentity.Valid e req = none ↔
      (req.DNSNames.toList = [] ∧ req.IPAddresses.toList = [] ∧ req.URIs.toList = [] ∧
        req.EmailAddresses.toList = [e]) := by
  unfold emailOnlyIdentity.Valid Slice.len
  cases hd : req.DNSNames.toList with
  | cons a t => simp
  | nil =>
    cases hi : req.IPAddresses.toList with
    | cons a t => simp
    | nil =>
      cases hu : req.URIs.toList with
      | cons a t => simp
      | nil =>
        cases hm : req.EmailAddresses.toList with
        | nil => simp
        | cons a t =>
          cases t with
          | nil => simp
          | cons b t' => simp

/-- C6, on the expected address `a@b.c`: the request whose only SAN is that address is
accepted; one that also carries a DNS name, one with another address and one with no
address are rejected. -/
theorem emailOnlyIdentity_Valid_iff_witness :
    emailOnlyIdentity.Valid "a@b.c"
        (requestWith "" Slice.nil (Slice.mk ["a@b.c"]) Slice.nil Slice.nil) = none ∧
    emailOnlyIdentity.Valid "a@b.c"
        (requestWith "" (Slice.mk ["b.c"]) (Slice.mk ["a@b.c"]) Slice.nil Slice.nil) ≠ none ∧
    emailOnlyIdentity.Valid "a@b.c"
        (requestWith "" Slice.nil (Slice.mk ["x@b.c"]) Slice.nil Slice.nil) ≠ none ∧
    emailOnlyIdentity.Valid "a@b.c"
        (requestWith "" Slice.nil Slice.nil Slice.nil Slice.nil) ≠ none :=
  ⟨(emailOnlyIdentity_Valid_iff _ _).2 (by decide),
    fun h => absurd ((emailOnlyIdentity_Valid_iff _ _).1 h) (by decide),
    fun h => absurd ((emailOnlyIdentity_Valid_iff _ _).1 h) (by decide),
    fun h => absurd ((emailOnlyIdentity_Valid_iff _ _).1 h) (by decide)⟩

/-- C7. On a request with no DNS name, IP address or URI, `emailOnlyIdentity.Valid` fails
with one message when there is no email address, with another when there is more than one,
and with a third when the single address is not the expected one; the three messages are
pairwise different, so the message is fixed by the number of addresses (0, more than 1, or
1 with a mismatch). -/
theorem emailOnlyIdentity_Valid_email_count_messages (e : emailOnlyIdentity)
    (req : CertificateRequest)
    (hd : req.DNSNames.len = 0) (hi : req.IPAddresses.len = 0) (hu : req.URIs.len = 0) :
    (req.EmailAddresses.len = 0 →
      emailOnlyIdentity.Valid e req =
        some "certificate request does not contain any email address") ∧
    (req.EmailAddresses.len > 1 →
      emailOnlyIdentity.Valid e req =
        some "certificate request does not contain too many email addresses") ∧
    (∀ got, req.EmailAddresses.toList = [got] → got ≠ e →
      emailOnlyIdentity.Valid e req =
        some ("certificate request does not contain the valid email address, got " ++
          got ++ ", want " ++ e)) ∧
    "certificate request does not contain any email address" ≠
      "certificate request does not contain too many email addresses" ∧
    (∀ got : String,
      "certificate request does not contain any email address" ≠
        "certificate request does not contain the valid email address, got " ++
          got ++ ", want " ++ e ∧
      "certificate request does not contain too many email addresses" ≠
        "certificate request does not contain the valid email address, got " ++
          got ++ ", want " ++ e) := by
  refine ⟨?_, ?_, ?_, by decide, ?_⟩
  · intro h0
    simp [emailOnlyIdentity.Valid, hd, hi, hu, h0]
  · intro h1
    have h0 : ¬ req.EmailAddresses.len = 0 := by omega
    simp [emailOnlyIdentity.Valid, hd, hi, hu, h1, h0]
  · intro got hg hne
    have hl : req.EmailAddresses.len = 1 := by simp [Slice.len, hg]
    simp [emailOnlyIdentity.Valid, hd, hi, hu, hl, hg, hne]
  · intro got
    constructor
    · exact ne_of_take_ne 40 (by simp)
    · exact ne_of_take_ne 40 (by simp)

/-- C7, on the expected address `a@b.c`: the messages for a request with no address, with
two addresses and with the single address `x@b.c`. -/
theorem emailOnlyIdentity_Valid_email_count_messages_witness :
    emailOnlyIdentity.Valid "a@b.c"
        (requestWith "" Slice.nil Slice.nil Slice.nil Slice.nil) =
      some "certificate request does not contain any email address" ∧
    emailOnlyIdentity.Valid "a@b.c"
        (requestWith "" Slice.nil (Slice.mk ["a@b.c", "x@b.c"]) Slice.nil Slice.nil) =
      some "certificate request does not contain too many email addresses" ∧
    emailOnlyIdentity.Valid "a@b.c"
        (requestWith "" Slice.nil (Slice.mk ["x@b.c"]) Slice.nil Slice.nil) =
      some ("certificate request does not contain the valid email address, got " ++
        "x@b.c" ++ ", want " ++ "a@b.c") :=
  ⟨(emailOnlyIdentity_Valid_email_count_messages "a@b.c"
      (requestWith "" Slice.nil Slice.nil Slice.nil Slice.nil)
      (by decide) (by decide) (by decide)).1 (by decide),
    (emailOnlyIdentity_Valid_email_count_messages "a@b.c"
      (requestWith "" Slice.nil (Slice.mk ["a@b.c", "x@b.c"]) Slice.nil Slice.nil)
      (by decide) (by decide) (by decide)).2.1 (by decide),
    (emailOnlyIdentity_Valid_email_count_messages "a@b.c"
      (requestWith "" Slice.nil (Slice.mk ["x@b.c"]) Slice.nil Slice.nil)
      (by decide) (by decide) (by decide)).2.2.1 "x@b.c" (by decide) (by decide)⟩

/-- C8. `commonNameValidator(v).Valid(req)` returns an error if and only if the common name
of the request is empty or differs from `v`; an empty common name is reported with its own
message, also when it differs from `v`, and that message is not the mismatch message. -/
theorem commonNameValidator_Valid_error_iff (v : commonNameValidator)
    (req : CertificateRequest) :
    ((commonNameValidator.Valid v req).isSome = true ↔
      (req.Subject.CommonName = "" ∨ req.Subject.CommonName ≠ v)) ∧
    (req.Subject.CommonName = "" →
      commonNameValidator.Valid v req =
        some "certificate request cannot contain an empty common name") ∧
    (req.Subject.CommonName ≠ "" → req.Subject.CommonName ≠ v →
      commonNameValidator.Valid v req =
        some ("certificate request does not contain the valid common name, got " ++
          req.Subject.CommonName ++ ", want " ++ v)) ∧
    "certificate request cannot contain an empty common name" ≠
      "certificate request does not contain the valid common name, got " ++
          req.Subject.CommonName ++ ", want " ++ v := by
  refine ⟨?_, ?_, ?_, ?_⟩
  · unfold commonNameValidator.Valid
    by_cases h1 : req.Subject.CommonName = ""
    · simp [h1]
    · by_cases h2 : req.Subject.CommonName = v
      · simp [h1, h2]
      · simp [h1, h2]
  · intro h1
    simp [commonNameValidator.Valid, h1]
  · intro h1 h2
    simp [commonNameValidator.Valid, h1, h2]
  · exact ne_of_take_ne 25 (by simp)

/-- C8, on the expected name `foo`: a request with an empty common name gets the
empty-name message although the name also differs from `foo`; a request named `bar` gets
the mismatch message; a request named `foo` is accepted. -/
theorem commonNameValidator_Valid_error_iff_witness :
    commonNameValidator.Valid "foo"
        (requestWith "" Slice.nil Slice.nil Slice.nil Slice.nil) =
      some "certificate request cannot contain an empty common name" ∧
    commonNameValidator.Valid "foo"
        (requestWith "bar" Slice.nil Slice.nil Slice.nil Slice.nil) =
      some ("certificate request does not contain the valid common name, got " ++
        (requestWith "bar" Slice.nil Slice.nil Slice.nil Slice.nil).Subject.CommonName ++
        ", want " ++ "foo") ∧
    ¬ (commonNameValidator.Valid "foo"
        (requestWith "foo" Slice.nil Slice.nil Slice.nil Slice.nil)).isSome = true :=
  ⟨(commonNameValidator_Valid_error_iff "foo"
      (requestWith "" Slice.nil Slice.nil Slice.nil Slice.nil)).2.1 (by decide),
    (commonNameValidator_Valid_error_iff "foo"
      (requestWith "bar" Slice.nil Slice.nil Slice.nil Slice.nil)).2.2.1
      (by decide) (by decide),
    fun h => absurd ((commonNameValidator_Valid_error_iff "foo"
      (requestWith "foo" Slice.nil Slice.nil Slice.nil Slice.nil)).1.1 h) (by decide)⟩

/-! ## The provisioner extension -/

/-- C9. The extension that `provisionerExtensionOption.Option()` adds to the certificate has
`Id` exactly `1.3.6.1.4.1.37476.9000.64.1` and `Critical = false`; `stepOIDProvisioner` is
`stepOIDRoot` followed by `1`, and `stepOIDRoot` is the 9-arc prefix
`1.3.6.1.4.1.37476.9000.64`. -/
theorem provisionerExtensionOption_Option_extension_id (o : provisionerExtensionOption)
    (p : Profile) :
    (∃ ext : Extension,
      (o.Option p).1.subject.ExtraExtensions =
        Slice.mk (p.subject.ExtraExtensions.toList ++ [ext]) ∧
      ext.Id = [1, 3, 6, 1, 4, 1, 37476, 9000, 64, 1] ∧ ext.Critical = false) ∧
    stepOIDProvisioner = stepOIDRoot ++ [1] ∧
    stepOIDRoot = [1, 3, 6, 1, 4, 1, 37476, 9000, 64] ∧ stepOIDRoot.length = 9 := by
  refine ⟨⟨⟨stepOIDProvisioner, false, (Marshal ⟨o.Typ, bytesOf o.Name,
    bytesOf o.CredentialID⟩).1⟩, ?_, rfl, rfl⟩, rfl, rfl, rfl⟩
  simp [provisionerExtensionOption.Option, provisionerExtensionOption.OptionWith, Marshal,
    Slice.append]

/-- C10. When `provisionerExtensionOption.Option()` is applied with success to a profile
whose subject certificate has the extension list `L`, the certificate ends with the
extension list `L ++ [provisioner extension]`, and nothing else changes: the resulting
profile is the given one with that single field replaced. -/
theorem provisionerExtensionOption_Option_appends (o : provisionerExtensionOption)
    (p : Profile) (L : List Extension) (hL : p.subject.ExtraExtensions.toList = L)
    (_hok : (o.Option p).2 = none) :
    (o.Option p).1.subject.ExtraExtensions.toList =
      L ++ [⟨stepOIDProvisioner, false,
        (Marshal ⟨o.Typ, bytesOf o.Name, bytesOf o.CredentialID⟩).1⟩] ∧
    (o.Option p).1 =
      { p with subject :=
        { p.subject with ExtraExtensions := (o.Option p).1.subject.ExtraExtensions } } := by
  subst hL
  simp [provisionerExtensionOption.Option, provisionerExtensionOption.OptionWith, Marshal,
    Slice.append, Slice.toList]

/-- C10, on a certificate that already carries one extension: the option of the test
provisioner succeeds, keeps that extension first and puts the provisioner extension
after it. -/
theorem provisionerExtensionOption_Option_appends_witness :
    (testOption.Option (profileOf testCert)).2 = none ∧
    (testOption.Option (profileOf testCert)).1.subject.ExtraExtensions.toList =
      [otherExtension] ++ [⟨stepOIDProvisioner, false,
        (Marshal ⟨testOption.Typ, bytesOf testOption.Name,
          bytesOf testOption.CredentialID⟩).1⟩] ∧
    (testOption.Option (profileOf testCert)).1 =
      { profileOf testCert with subject :=
        { testCert with ExtraExtensions :=
            (testOption.Option (profileOf testCert)).1.subject.ExtraExtensions } } :=
  ⟨rfl, provisionerExtensionOption_Option_appends testOption (profileOf testCert)
    [otherExtension] rfl rfl⟩

/-! ## Consequences for degenerate configurations -/

/-- C17. A `validityValidator` with `min > max` rejects every certificate at every clock
reading: the duration of any certificate is below `min` or above `max`. -/
theorem validityValidator_Valid_rejects_all_of_min_gt_max (f : Fmt) (now : Time)
    (v : validityValidator) (crt : Certificate) (h : v.min > v.max) :
    (validityValidator.Valid f now v crt).isSome = true ∧
    (crt.NotAfter.Sub crt.NotBefore < v.min ∨ crt.NotAfter.Sub crt.NotBefore > v.max) := by
  have hd : crt.NotAfter.Sub crt.NotBefore < v.min ∨
      crt.NotAfter.Sub crt.NotBefore > v.max := by omega
  refine ⟨?_, hd⟩
  unfold validityValidator.Valid
  by_cases h1 : crt.NotAfter.Before now = true
  · simp [h1]
  · by_cases h2 : crt.NotAfter.Before crt.NotBefore = true
    · simp [h1, h2]
    · by_cases h3 : crt.NotAfter.Sub crt.NotBefore < v.min
      · simp [h1, h2, h3]
      · have h4 : crt.NotAfter.Sub crt.NotBefore > v.max := by omega
        simp [h1, h2, h3, h4]

/-- C17, on the validator with `min = 24h` and `max = 5m` at hour 100: the certificates
of one minute, one hour and 48 hours, all starting now, are rejected. -/
theorem validityValidator_Valid_rejects_all_of_min_gt_max_witness :
    invertedValidity.min > invertedValidity.max ∧
    (validityValidator.Valid plainFmt testNow invertedValidity
        (certWith (100 * Hour) (100 * Hour + 1 * Minute))).isSome = true ∧
    (validityValidator.Valid plainFmt testNow invertedValidity
        (certWith (100 * Hour) (101 * Hour))).isSome = true ∧
    (validityValidator.Valid plainFmt testNow invertedValidity
        (certWith (100 * Hour) (148 * Hour))).isSome = true :=
  ⟨by decide,
    (validityValidator_Valid_rejects_all_of_min_gt_max plainFmt testNow invertedValidity
      (certWith (100 * Hour) (100 * Hour + 1 * Minute)) (by decide)).1,
    (validityValidator_Valid_rejects_all_of_min_gt_max plainFmt testNow invertedValidity
      (certWith (100 * Hour) (101 * Hour)) (by decide)).1,
    (validityValidator_Valid_rejects_all_of_min_gt_max plainFmt testNow invertedValidity
      (certWith (100 * Hour) (148 * Hour)) (by decide)).1⟩

/-- C18. `commonNameValidator("")` rejects every certificate request: a request with an
empty common name fails the emptiness check, any other request fails the comparison with
the empty expected name. -/
theorem commonNameValidator_empty_rejects_all (req : CertificateRequest) :
    (commonNameValidator.Valid "" req).isSome = true ∧
    (req.Subject.CommonName = "" →
      commonNameValidator.Valid "" req =
        some "certificate request cannot contain an empty common name") ∧
    (req.Subject.CommonName ≠ "" →
      commonNameValidator.Valid "" req =
        some ("certificate request does not contain the valid common name, got " ++
          req.Subject.CommonName ++ ", want " ++ "")) := by
  unfold commonNameValidator.Valid
  by_cases h : req.Subject.CommonName = ""
  · simp [h]
  · simp [h]

/-- C18, on two requests: the one without a common name and the one named `foo` are both
rejected by `commonNameValidator("")`, each with the message of its check. -/
theorem commonNameValidator_empty_rejects_all_witness :
    commonNameValidator.Valid ""
        (requestWith "" Slice.nil Slice.nil Slice.nil Slice.nil) =
      some "certificate request cannot contain an empty common name" ∧
    commonNameValidator.Valid ""
        (requestWith "foo" Slice.nil Slice.nil Slice.nil Slice.nil) =
      some ("certificate request does not contain the valid common name, got " ++
        (requestWith "foo" Slice.nil Slice.nil Slice.nil Slice.nil).Subject.CommonName ++
        ", want " ++ "") :=
  ⟨(commonNameValidator_empty_rejects_all
      (requestWith "" Slice.nil Slice.nil Slice.nil Slice.nil)).2.1 (by decide),
    (commonNameValidator_empty_rejects_all
      (requestWith "foo" Slice.nil Slice.nil Slice.nil Slice.nil)).2.2 (by decide)⟩

/-! ## Representations of an IPv4 address -/

/-- The method `To4` returns a 4-byte address as it is. -/
theorem IP.To4_of_length_four (q : IP) (h : q.length = IPv4len) : IP.To4 q = q := by
  unfold IP.To4
  simp [h]

/-- The text of an address does not change with the representation of an IPv4 address. -/
theorem IP.String_otherForm (ip : IP) : IP.String (IP.otherForm ip) = IP.String ip := by
  unfold IP.otherForm
  by_cases h4 : ip.length = IPv4len
  · simp only [h4, if_true]
    have hl : ip.length = 4 := h4
    match ip, hl with
    | [a, b, c, d], _ =>
      simp [IP.String, IP.To4, v4InV6Prefix, IPv4len, IPv6len, isZeros]
  · simp only [h4, if_false]
    by_cases h : (IP.To4 ip).length = IPv4len
    · simp only [h, if_true]
      have hne : ip.length ≠ 0 := by
        intro h0
        have hnil : ip = [] := List.length_eq_zero.mp h0
        subst hnil
        simp [IP.To4, IPv4len, IPv6len] at h
      have h44 : IP.To4 (IP.To4 ip) = IP.To4 ip := IP.To4_of_length_four _ h
      have h40 : ¬ IPv4len = 0 := by decide
      unfold IP.String
      simp only [h44, h, hne, h40, if_true, if_false]
    · simp only [h, if_false]

/-- The validator reads its two lists of addresses only through their texts. -/
theorem ipAddressesValidator_Valid_congr (v v' : ipAddressesValidator)
    (req req' : CertificateRequest)
    (hv : v'.toList.map IP.String = v.toList.map IP.String)
    (hr : req'.IPAddresses.toList.map IP.String = req.IPAddresses.toList.map IP.String) :
    ipAddressesValidator.Valid v' req' = ipAddressesValidator.Valid v req := by
  unfold ipAddressesValidator.Valid
  rw [hv, hr]

/-- Replacing addresses by their other representation keeps the list of texts. -/
theorem map_String_of_otherForm (xs ys : List IP)
    (h : List.Forall₂ (fun x y => y = x ∨ y = IP.otherForm x) xs ys) :
    ys.map IP.String = xs.map IP.String := by
  induction h with
  | nil => rfl
  | cons hxy _ ih =>
    rw [List.map_cons, List.map_cons, ih]
    rcases hxy with e | e
    · rw [e]
    · rw [e, IP.String_otherForm]

/-- C19. `ipAddressesValidator` compares addresses by their text: the 4-byte form and the
16-byte IPv4-mapped form of an IPv4 address `a.b.c.d` are different byte slices with the
same text, and replacing any addresses of the expected list or of the request by the other
representation of the same IPv4 address does not change the result of `Valid` (neither
the decision nor the message). -/
theorem ipAddressesValidator_Valid_same_for_both_forms (v v' : ipAddressesValidator)
    (req req' : CertificateRequest)
    (hv : List.Forall₂ (fun x y => y = x ∨ y = IP.otherForm x) v.toList v'.toList)
    (hr : List.Forall₂ (fun x y => y = x ∨ y = IP.otherForm x)
      req.IPAddresses.toList req'.IPAddresses.toList) :
    ipAddressesValidator.Valid v' req' = ipAddressesValidator.Valid v req ∧
    (∀ a b c d : Nat, IP.otherForm [a, b, c, d] = IPv4 a b c d ∧
      IP.otherForm (IPv4 a b c d) = [a, b, c, d] ∧
      [a, b, c, d] ≠ IPv4 a b c d ∧
      IP.String [a, b, c, d] = IP.String (IPv4 a b c d)) := by
  refine ⟨ipAddressesValidator_Valid_congr v v' req req' (map_String_of_otherForm _ _ hv)
    (map_String_of_otherForm _ _ hr), fun a b c d => ?_⟩
  have h1 : IP.otherForm [a, b, c, d] = IPv4 a b c d := by
    simp [IP.otherForm, IPv4, IPv4len]
  refine ⟨h1, ?_, ?_, ?_⟩
  · simp [IP.otherForm, IPv4, IP.To4, v4InV6Prefix, IPv4len, IPv6len, isZeros]
  · simp [IPv4, v4InV6Prefix]
  · rw [← h1, IP.String_otherForm]

/-- C19, on the address `10.0.0.1`: the validator that expects its 4-byte form accepts a
request that carries the 16-byte form, as it accepts the 4-byte form; and it rejects
`10.0.0.2` in either form with the same message. -/
theorem ipAddressesValidator_Valid_same_for_both_forms_witness :
    ipAddressesValidator.Valid (Slice.mk [[10, 0, 0, 1]])
        (requestWith "" Slice.nil Slice.nil (Slice.mk [IPv4 10 0 0 1]) Slice.nil) =
      ipAddressesValidator.Valid (Slice.mk [[10, 0, 0, 1]])
        (requestWith "" Slice.nil Slice.nil (Slice.mk [[10, 0, 0, 1]]) Slice.nil) ∧
    ipAddressesValidator.Valid (Slice.mk [[10, 0, 0, 1]])
        (requestWith "" Slice.nil Slice.nil (Slice.mk [IPv4 10 0 0 1]) Slice.nil) = none ∧
    ipAddressesValidator.Valid (Slice.mk [IPv4 10 0 0 1])
        (requestWith "" Slice.nil Slice.nil (Slice.mk [IPv4 10 0 0 2]) Slice.nil) =
      ipAddressesValidator.Valid (Slice.mk [[10, 0, 0, 1]])
        (requestWith "" Slice.nil Slice.nil (Slice.mk [[10, 0, 0, 2]]) Slice.nil) ∧
    ipAddressesValidator.Valid (Slice.mk [[10, 0, 0, 1]])
        (requestWith "" Slice.nil Slice.nil (Slice.mk [[10, 0, 0, 2]]) Slice.nil) ≠ none :=
  ⟨(ipAddressesValidator_Valid_same_for_both_forms (Slice.mk [[10, 0, 0, 1]])
      (Slice.mk [[10, 0, 0, 1]])
      (requestWith "" Slice.nil Slice.nil (Slice.mk [[10, 0, 0, 1]]) Slice.nil)
      (requestWith "" Slice.nil Slice.nil (Slice.mk [IPv4 10 0 0 1]) Slice.nil)
      (List.Forall₂.cons (Or.inl rfl) List.Forall₂.nil)
      (List.Forall₂.cons (Or.inr (by decide)) List.Forall₂.nil)).1,
    by decide,
    (ipAddressesValidator_Valid_same_for_both_forms (Slice.mk [[10, 0, 0, 1]])
      (Slice.mk [IPv4 10 0 0 1])
      (requestWith "" Slice.nil Slice.nil (Slice.mk [[10, 0, 0, 2]]) Slice.nil)
      (requestWith "" Slice.nil Slice.nil (Slice.mk [IPv4 10 0 0 2]) Slice.nil)
      (List.Forall₂.cons (Or.inr (by decide)) List.Forall₂.nil)
      (List.Forall₂.cons (Or.inr (by decide)) List.Forall₂.nil)).1,
    by decide⟩

/-! ## The provisioner extension: success, failure, construction -/

/-- C12. For every type code (negative ones included), every name and every credential ID
(empty ones included), applying `provisionerExtensionOption.Option()` to a profile returns
no error and adds exactly one extension: marshaling a `stepProvisionerASN1` never fails,
so the error branch is not taken. -/
theorem provisionerExtensionOption_Option_never_fails (o : provisionerExtensionOption)
    (p : Profile) :
    (o.Option p).2 = none ∧
    (o.Option p).1.subject.ExtraExtensions.len = p.subject.ExtraExtensions.len + 1 ∧
    (∃ ext : Extension, (o.Option p).1.subject.ExtraExtensions.toList =
      p.subject.ExtraExtensions.toList ++ [ext]) ∧
    (∀ x : stepProvisionerASN1, (Marshal x).2 = none) := by
  refine ⟨rfl, ?_, ⟨⟨stepOIDProvisioner, false,
    (Marshal ⟨o.Typ, bytesOf o.Name, bytesOf o.CredentialID⟩).1⟩, ?_⟩, fun _ => rfl⟩
  · simp [provisionerExtensionOption.Option, provisionerExtensionOption.OptionWith, Marshal,
      Slice.append, Slice.len, Slice.toList]
  · simp [provisionerExtensionOption.Option, provisionerExtensionOption.OptionWith, Marshal,
      Slice.append, Slice.toList]

/-- C12, on an option with a negative type code and empty strings, applied to a certificate
with one extension: no error, two extensions afterwards. -/
theorem provisionerExtensionOption_Option_never_fails_witness :
    ((newProvisionerExtensionOption (-1) "" "").Option (profileOf testCert)).2 = none ∧
    ((newProvisionerExtensionOption (-1) "" "").Option
      (profileOf testCert)).1.subject.ExtraExtensions.len = 2 :=
  ⟨(provisionerExtensionOption_Option_never_fails (newProvisionerExtensionOption (-1) "" "")
      (profileOf testCert)).1,
    (provisionerExtensionOption_Option_never_fails (newProvisionerExtensionOption (-1) "" "")
      (profileOf testCert)).2.1⟩

/-- C13. If marshaling the provisioner structure fails inside the option, the option returns
the error `error marshaling provisioner extension: ` followed by the text of the underlying
error, and the profile (hence the extension list of the certificate) is left exactly as it
was. -/
theorem provisionerExtensionOption_OptionWith_marshal_error
    (marshal : stepProvisionerASN1 → List Nat × GoError) (o : provisionerExtensionOption)
    (p : Profile) (err : String)
    (h : (marshal ⟨o.Typ, bytesOf o.Name, bytesOf o.CredentialID⟩).2 = some err) :
    (provisionerExtensionOption.OptionWith marshal o p).2 =
      some ("error marshaling provisioner extension" ++ (": " ++ err)) ∧
    (provisionerExtensionOption.OptionWith marshal o p).1 = p ∧
    (provisionerExtensionOption.OptionWith marshal o p).1.subject.ExtraExtensions =
      p.subject.ExtraExtensions := by
  have hmsg : "error marshaling provisioner extension" ++ (": " ++ err) =
      "error marshaling provisioner extension: " ++ err := by
    rw [← String.append_assoc]
    rfl
  unfold provisionerExtensionOption.OptionWith
  simp only [h, hmsg, and_self]

/-- C13, with a marshaling function that always fails: the option of the test provisioner
returns the wrapped error and leaves the certificate with its single extension. -/
theorem provisionerExtensionOption_OptionWith_marshal_error_witness :
    (failingMarshal ⟨testOption.Typ, bytesOf testOption.Name,
      bytesOf testOption.CredentialID⟩).2 = some "asn1: structure error: unknown Go type" ∧
    (provisionerExtensionOption.OptionWith failingMarshal testOption (profileOf testCert)).2 =
      some ("error marshaling provisioner extension" ++
        (": " ++ "asn1: structure error: unknown Go type")) ∧
    (provisionerExtensionOption.OptionWith failingMarshal testOption
      (profileOf testCert)).1.subject.ExtraExtensions = Slice.mk [otherExtension] :=
  ⟨rfl,
    (provisionerExtensionOption_OptionWith_marshal_error failingMarshal testOption
      (profileOf testCert) "asn1: structure error: unknown Go type" rfl).1,
    (provisionerExtensionOption_OptionWith_marshal_error failingMarshal testOption
      (profileOf testCert) "asn1: structure error: unknown Go type" rfl).2.2⟩

/-- C14. `newProvisionerExtensionOption(typ, name, credentialID)` yields the option whose
`Type` is `int(typ)`, whose `Name` is `name` and whose `CredentialID` is `credentialID`,
and nothing else: the option type has these three fields only, so it carries no key-value
pairs. -/
theorem newProvisionerExtensionOption_fields (typ : Int) (name credentialID : String) :
    (newProvisionerExtensionOption typ name credentialID).Typ = typ ∧
    (newProvisionerExtensionOption typ name credentialID).Name = name ∧
    (newProvisionerExtensionOption typ name credentialID).CredentialID = credentialID ∧
    (∀ o : provisionerExtensionOption,
      o.Typ = typ → o.Name = name → o.CredentialID = credentialID →
      o = newProvisionerExtensionOption typ name credentialID) := by
  refine ⟨rfl, rfl, rfl, ?_⟩
  rintro ⟨t, n, c⟩ h1 h2 h3
  simp only at h1 h2 h3
  subst h1 h2 h3
  rfl

/-- C14, on the test provisioner: type code 6, name `test@acme-provisioner.com`, empty
credential ID. -/
theorem newProvisionerExtensionOption_fields_witness :
    testOption.Typ = 6 ∧ testOption.Name = "test@acme-provisioner.com" ∧
    testOption.CredentialID = "" :=
  ⟨(newProvisionerExtensionOption_fields 6 "test@acme-provisioner.com" "").1,
    (newProvisionerExtensionOption_fields 6 "test@acme-provisioner.com" "").2.1,
    (newProvisionerExtensionOption_fields 6 "test@acme-provisioner.com" "").2.2.1⟩

/-! ## AuthorizeSign of the credential-less provisioner -/

/-- A provisioner that `Init` accepted has its claimer bound to the merged claims, and
these satisfy the bounds `0 < Min ≤ Default ≤ Max`. -/
theorem ACME.Init_ok (p p' : ACME) (config : Config) (h : p.Init config = (p', none)) :
    p' = { p with claimer := some (mergeClaims p.Claims config.Claims) } ∧
    0 < (mergeClaims p.Claims config.Claims).MinTLSCertDuration ∧
    (mergeClaims p.Claims config.Claims).MinTLSCertDuration ≤
      (mergeClaims p.Claims config.Claims).DefaultTLSCertDuration ∧
    (mergeClaims p.Claims config.Claims).DefaultTLSCertDuration ≤
      (mergeClaims p.Claims config.Claims).MaxTLSCertDuration := by
  unfold ACME.Init NewClaimer at h
  by_cases h1 : p.Typ = ""
  · simp [h1] at h
  · by_cases h2 : p.Name = ""
    · simp [h1, h2] at h
    · simp only [h1, h2, if_false] at h
      by_cases c1 : (mergeClaims p.Claims config.Claims).DefaultTLSCertDuration ≤ 0
      · simp [c1] at h
      · by_cases c2 : (mergeClaims p.Claims config.Claims).DefaultTLSCertDuration <
            (mergeClaims p.Claims config.Claims).MinTLSCertDuration
        · simp [c1, c2] at h
        · by_cases c3 : (mergeClaims p.Claims config.Claims).MaxTLSCertDuration <
              (mergeClaims p.Claims config.Claims).DefaultTLSCertDuration
          · simp [c1, c2, c3] at h
          · by_cases c4 : (mergeClaims p.Claims config.Claims).MinTLSCertDuration ≤ 0
            · simp [c1, c2, c3, c4] at h
            · simp only [c1, c2, c3, c4, if_false, Prod.mk.injEq, and_true] at h
              exact ⟨h.symm, by omega, by omega, by omega⟩

/-- C15. For every provisioner that `Init` accepted, `AuthorizeSign` with the method `Sign`
returns no error and exactly four options, in this order: the duration option with the
resolved default duration, the extension option with (type code, name, empty credential
ID), the `validityValidator` whose `min` and `max` are the resolved minimum and maximum
durations, and the default public-key validator. -/
theorem ACME_AuthorizeSign_Sign_options (p p' : ACME) (config : Config) (credential : String)
    (h : p.Init config = (p', none)) :
    ∃ c : Claimer, p'.claimer = some c ∧ c = mergeClaims p.Claims config.Claims ∧
      p'.AuthorizeSign SignMethod credential =
        some (Slice.mk [
          SignOption.profileDefaultDuration c.DefaultTLSCertDuration,
          SignOption.provisionerExtensionOption ⟨TypeACME, p'.Name, ""⟩,
          SignOption.validator
            (Validator.validityValidator ⟨c.MinTLSCertDuration, c.MaxTLSCertDuration⟩),
          SignOption.defaultPublicKeyValidator], none) := by
  have hp := (ACME.Init_ok p p' config h).1
  refine ⟨mergeClaims p.Claims config.Claims, by rw [hp], rfl, ?_⟩
  rw [hp]
  simp [ACME.AuthorizeSign, newProvisionerExtensionOption]

/-- C15, on the test provisioner with the global claims of the test: `Init` succeeds and
`AuthorizeSign` yields the duration option of 24 hours, the extension option
`(6, test@acme-provisioner.com, "")`, the validator between 5 minutes and 24 hours, and
the default public-key validator. -/
theorem ACME_AuthorizeSign_Sign_options_witness :
    (testACME.Init ⟨globalProvisionerClaims⟩).2 = none ∧
    ∃ c : Claimer, (testACME.Init ⟨globalProvisionerClaims⟩).1.claimer = some c ∧
      c = mergeClaims testACME.Claims globalProvisionerClaims ∧
      (testACME.Init ⟨globalProvisionerClaims⟩).1.AuthorizeSign SignMethod "" =
        some (Slice.mk [
          SignOption.profileDefaultDuration c.DefaultTLSCertDuration,
          SignOption.provisionerExtensionOption
            ⟨TypeACME, (testACME.Init ⟨globalProvisionerClaims⟩).1.Name, ""⟩,
          SignOption.validator
            (Validator.validityValidator ⟨c.MinTLSCertDuration, c.MaxTLSCertDuration⟩),
          SignOption.defaultPublicKeyValidator], none) :=
  ⟨by decide,
    ACME_AuthorizeSign_Sign_options testACME (testACME.Init ⟨globalProvisionerClaims⟩).1
      ⟨globalProvisionerClaims⟩ "" (by decide)⟩

/-- The options of the test provisioner, written out: 24 hours is 86400000000000
nanoseconds and 5 minutes is 300000000000 nanoseconds, as in the test. -/
theorem testACME_AuthorizeSign :
    (testACME.Init ⟨globalProvisionerClaims⟩).1.AuthorizeSign SignMethod "" =
      some (Slice.mk [
        SignOption.profileDefaultDuration 86400000000000,
        SignOption.provisionerExtensionOption ⟨6, "test@acme-provisioner.com", ""⟩,
        SignOption.validator (Validator.validityValidator ⟨300000000000, 86400000000000⟩),
        SignOption.defaultPublicKeyValidator], none) := by
  decide

/-- C16. For every provisioner, initialized or not, and every method other than `Sign`,
`AuthorizeSign` fails with the message `unexpected method type <n> in context`, `n` being
the method in decimal, and the list of options it returns is `nil`. -/
theorem ACME_AuthorizeSign_unexpected_method (p : ACME) (method : Method)
    (credential : String) (h : method ≠ SignMethod) :
    p.AuthorizeSign method credential =
      some (Slice.nil, some ("unexpected method type " ++ toString method ++ " in context")) := by
  simp [ACME.AuthorizeSign, h]

/-- C16, on the test provisioner, before and after `Init`: the method `SignSSH` gives
`unexpected method type 1 in context` and no option. -/
theorem ACME_AuthorizeSign_unexpected_method_witness :
    SignSSHMethod ≠ SignMethod ∧
    testACME.AuthorizeSign SignSSHMethod "" =
      some (Slice.nil, some "unexpected method type 1 in context") ∧
    (testACME.Init ⟨globalProvisionerClaims⟩).1.AuthorizeSign SignSSHMethod "" =
      some (Slice.nil, some "unexpected method type 1 in context") :=
  ⟨by decide,
    (ACME_AuthorizeSign_unexpected_method testACME SignSSHMethod "" (by decide)).trans
      (by decide),
    (ACME_AuthorizeSign_unexpected_method (testACME.Init ⟨globalProvisionerClaims⟩).1
      SignSSHMethod "" (by decide)).trans (by decide)⟩

/-! ## Encoding and decoding of the provisioner structure -/

/-- The digits written by `appendLength` are the base-256 digits. -/
theorem range_map_eq_base256 (k n : Nat) :
    (List.range k).map (fun j => n / 2 ^ ((k - 1 - j) * 8) % 256) = base256 k n := by
  induction k generalizing n with
  | zero => rfl
  | succ k ih =>
    rw [List.range_succ, List.map_append, base256, ← ih (n / 256)]
    congr 1
    · apply List.map_congr_left
      intro j hj
      have hjk : j < k := List.mem_range.mp hj
      have he : (k + 1 - 1 - j) * 8 = 8 + (k - 1 - j) * 8 := by omega
      rw [he, Nat.pow_add, ← Nat.div_div_eq_div_mul]
    · simp

/-- Dividing by `a` and then by `b` is dividing by `a * b` (floor division). -/
theorem ediv_ediv_pos (i a b : Int) (ha : 0 < a) (hb : 0 < b) : i / a / b = i / (a * b) := by
  have key : ∀ c : Int, c ≤ i / a / b ↔ c ≤ i / (a * b) := by
    intro c
    rw [Int.le_ediv_iff_mul_le hb, Int.le_ediv_iff_mul_le ha,
      Int.le_ediv_iff_mul_le (by positivity)]
    have e : c * b * a = c * (a * b) := by ring
    rw [e]
  exact le_antisymm ((key _).1 le_rfl) ((key _).2 le_rfl)

/-- The octets written by `int64Encode` are the two's complement octets. -/
theorem range_map_eq_base256Int (k : Nat) (i : Int) :
    (List.range k).map (fun j => (i / 2 ^ ((k - 1 - j) * 8) % 256).toNat) =
      base256Int k i := by
  induction k generalizing i with
  | zero => rfl
  | succ k ih =>
    rw [List.range_succ, List.map_append, base256Int, ← ih (i / 256)]
    congr 1
    · apply List.map_congr_left
      intro j hj
      have hjk : j < k := List.mem_range.mp hj
      have he : (k + 1 - 1 - j) * 8 = 8 + (k - 1 - j) * 8 := by omega
      rw [he, pow_add, ediv_ediv_pos i 256 _ (by norm_num) (by positivity)]
      norm_num
    · simp

/-- The list of base-256 digits has the requested length. -/
theorem length_base256 (k n : Nat) : (base256 k n).length = k := by
  induction k generalizing n with
  | zero => rfl
  | succ k ih => simp [base256, ih]

/-- Reading the base-256 digits back gives the number modulo `256 ^ k`. -/
theorem foldl_base256 (k n : Nat) :
    (base256 k n).foldl (fun acc b => acc * 256 + b) 0 = n % 256 ^ k := by
  induction k generalizing n with
  | zero => simp [base256, Nat.mod_one]
  | succ k ih =>
    rw [base256, List.foldl_append, ih]
    simp only [List.foldl_cons, List.foldl_nil]
    rw [pow_succ, Nat.mul_comm (256 ^ k) 256, Nat.mod_mul]
    omega

/-- The first base-256 digit. -/
theorem headD_base256 (k n : Nat) :
    (base256 (k + 1) n).headD 0 = n / 256 ^ k % 256 := by
  induction k generalizing n with
  | zero => simp [base256]
  | succ k ih =>
    rw [base256]
    have hne : base256 (k + 1) (n / 256) ≠ [] := by
      intro h
      have hl := length_base256 (k + 1) (n / 256)
      rw [h] at hl
      simp at hl
    cases hb : base256 (k + 1) (n / 256) with
    | nil => exact absurd hb hne
    | cons a t =>
      have hih := ih (n / 256)
      rw [hb] at hih
      simp only [List.headD_cons] at hih
      simp only [List.cons_append, List.headD_cons]
      rw [hih, Nat.div_div_eq_div_mul, pow_succ, Nat.mul_comm]

/-- The function `lengthLengthAux` with enough fuel returns the number of base-256 digits
of its argument. -/
theorem lengthLengthAux_spec (fuel n : Nat) (h : n ≤ fuel) :
    ∃ m, lengthLengthAux fuel n = m + 1 ∧ n < 256 ^ (m + 1) ∧ (1 ≤ n → 256 ^ m ≤ n) := by
  induction fuel generalizing n with
  | zero =>
    refine ⟨0, rfl, ?_, ?_⟩ <;> omega
  | succ fuel ih =>
    by_cases hn : n > 255
    · obtain ⟨m, hm, hlt, hge⟩ := ih (n / 256) (by omega)
      refine ⟨m + 1, ?_, ?_, ?_⟩
      · simp only [lengthLengthAux, hn, if_true, hm]
        omega
      · rw [pow_succ]
        have := (Nat.div_lt_iff_lt_mul (by norm_num : 0 < 256)).mp hlt
        omega
      · intro _
        have h1 : 256 ^ m ≤ n / 256 := hge (by omega)
        rw [pow_succ]
        have := (Nat.le_div_iff_mul_le (by norm_num : 0 < 256)).mp h1
        omega
    · refine ⟨0, ?_, ?_, ?_⟩
      · simp [lengthLengthAux, hn]
      · omega
      · intro h1; simpa using h1

/-- The length of a Go slice takes at most 8 octets. -/
theorem lengthLength_le (n : Nat) (h : n < 2 ^ 63) : lengthLength n ≤ 8 := by
  obtain ⟨m, hm, _, hge⟩ := lengthLengthAux_spec n n (le_refl n)
  unfold lengthLength
  rw [hm]
  by_contra hc
  have h8 : 8 ≤ m := by omega
  have hn : 1 ≤ n := by
    by_contra h0
    have hz : n = 0 := by omega
    subst hz
    have hm0 : lengthLengthAux 0 0 = 1 := rfl
    omega
  have hp : 256 ^ 8 ≤ 256 ^ m := Nat.pow_le_pow_right (by norm_num) h8
  have := hge hn
  have h63 : (2 : Nat) ^ 63 < 256 ^ 8 := by norm_num
  omega

/-- Decoding the length octets written by `appendTagAndLength` gives the length back. -/
theorem parseLength_appendTagAndLength (b n : Nat) (rest : List Nat) (h : n < 2 ^ 63) :
    ∃ l hdr, appendTagAndLength b n = b :: l :: hdr ∧
      parseLength (l :: (hdr ++ rest)) = some (n, rest) := by
  unfold appendTagAndLength
  by_cases hn : n ≥ 128
  · obtain ⟨m, hm, hlt, hge⟩ := lengthLengthAux_spec n n (le_refl n)
    have hk : lengthLength n = m + 1 := hm
    have hle := lengthLength_le n h
    have hdig : appendLength n = base256 (m + 1) n := by
      unfold appendLength
      simp only [hk]
      exact range_map_eq_base256 (m + 1) n
    have hor : 0x80 ||| lengthLength n % 256 = 128 + (m + 1) := by
      rw [hk]
      have hmod : (m + 1) % 256 = m + 1 := Nat.mod_eq_of_lt (by omega)
      rw [hmod]
      have := Nat.mul_add_lt_is_or (show m + 1 < 2 ^ 7 by omega) 1
      simpa using this.symm
    refine ⟨0x80 ||| lengthLength n % 256, appendLength n, by simp [hn], ?_⟩
    rw [hor, hdig]
    have hlen := length_base256 (m + 1) n
    have hnum : (128 + (m + 1)) % 128 = m + 1 := by omega
    have htake : (base256 (m + 1) n ++ rest).take (m + 1) = base256 (m + 1) n := by
      rw [List.take_append_of_le_length (by omega)]
      exact List.take_of_length_le (by omega)
    have hdrop : (base256 (m + 1) n ++ rest).drop (m + 1) = rest := by
      rw [List.drop_append_of_le_length (by omega)]
      rw [List.drop_of_length_le (by omega)]
      rfl
    have hval : (base256 (m + 1) n).foldl (fun acc b => acc * 256 + b) 0 = n := by
      rw [foldl_base256]
      exact Nat.mod_eq_of_lt hlt
    have hhead : (base256 (m + 1) n ++ rest).headD 0 ≠ 0 := by
      have hh := headD_base256 m n
      cases hb : base256 (m + 1) n with
      | nil => rw [hb] at hlen; simp at hlen
      | cons a t =>
        rw [hb] at hh
        simp only [List.headD_cons] at hh
        simp only [List.cons_append, List.headD_cons]
        rw [hh]
        have h1 : 256 ^ m ≤ n := hge (by omega)
        have h2 : n / 256 ^ m < 256 := by
          rw [Nat.div_lt_iff_lt_mul (by positivity)]
          rw [pow_succ] at hlt
          omega
        have h3 : 1 ≤ n / 256 ^ m := by
          rw [Nat.le_div_iff_mul_le (by positivity)]
          omega
        rw [Nat.mod_eq_of_lt h2]
        omega
    unfold parseLength
    have hlen2 : ¬ (base256 (m + 1) n ++ rest).length < m + 1 := by
      rw [List.length_append]; omega
    simp only [hnum, htake, hdrop, hval, hhead, hlen2]
    simp
    omega
  · refine ⟨n, [], by simp [hn], ?_⟩
    have hlt : n < 128 := by omega
    simp [parseLength, hlt]

/-- Decoding one encoded element gives its content and the bytes that follow it. -/
theorem parseElement_tlv (tag : Nat) (content rest : List Nat)
    (h : content.length < 2 ^ 63) :
    parseElement tag (tlv tag content ++ rest) = some (content, rest) := by
  obtain ⟨l, hdr, hhdr, hparse⟩ :=
    parseLength_appendTagAndLength tag content.length (content ++ rest) h
  unfold tlv
  rw [hhdr]
  have hshape : tag :: l :: hdr ++ content ++ rest = tag :: (l :: (hdr ++ (content ++ rest))) := by
    simp
  rw [hshape]
  unfold parseElement
  simp only [ne_eq, not_true_eq_false, if_false, hparse]
  have hlen : ¬ (content ++ rest).length < content.length := by
    rw [List.length_append]; omega
  simp only [hlen, if_false]
  rw [List.take_left', List.drop_left'] <;> rfl

/-- An encoded element is at least as long as its content. -/
theorem length_le_length_tlv (tag : Nat) (content : List Nat) :
    content.length ≤ (tlv tag content).length := by
  unfold tlv
  rw [List.length_append]
  omega

/-- The function `int64LengthAux` with enough fuel returns the least number of octets
that hold its argument in two's complement. -/
theorem int64LengthAux_spec (fuel : Nat) (i : Int) (h : i.natAbs ≤ fuel) :
    ∃ m, int64LengthAux fuel i = m + 1 ∧ -128 ≤ i / 256 ^ m ∧ i / 256 ^ m ≤ 127 ∧
      ∀ m', m = m' + 1 → ¬ (-128 ≤ i / 256 ^ m' ∧ i / 256 ^ m' ≤ 127) := by
  induction fuel generalizing i with
  | zero =>
    have hi : i = 0 := by omega
    subst hi
    exact ⟨0, rfl, by norm_num, by norm_num, fun m' hm' => by omega⟩
  | succ fuel ih =>
    by_cases hc : i > 127 ∨ i < -128
    · obtain ⟨m, hm, hlo, hhi, hmin⟩ := ih (i / 256) (by omega)
      have hdiv : ∀ k : Nat, i / 256 / 256 ^ k = i / 256 ^ (k + 1) := by
        intro k
        rw [ediv_ediv_pos i 256 _ (by norm_num) (by positivity), pow_succ, mul_comm]
      refine ⟨m + 1, ?_, ?_, ?_, ?_⟩
      · simp only [int64LengthAux, hc, if_true, hm]
        omega
      · rw [← hdiv]; exact hlo
      · rw [← hdiv]; exact hhi
      · intro m' hm'
        have hmm : m = m' := by omega
        subst hmm
        cases m with
        | zero =>
          simp only [pow_zero, Int.ediv_one]
          omega
        | succ k =>
          rw [← hdiv]
          exact hmin k rfl
    · refine ⟨0, ?_, ?_, ?_, ?_⟩
      · simp [int64LengthAux, hc]
      · simp only [pow_zero, Int.ediv_one]; omega
      · simp only [pow_zero, Int.ediv_one]; omega
      · intro m' hm'; omega

/-- Reading `m + 1` two's complement octets back gives the number, when it fits. -/
theorem foldl_base256Int (m : Nat) (i : Int) (hlo : -128 ≤ i / 256 ^ m)
    (hhi : i / 256 ^ m ≤ 127) :
    ∃ b0 rest, base256Int (m + 1) i = b0 :: rest ∧
      rest.foldl (fun (acc : Int) (b : Nat) => acc * 256 + (b : Int)) (signExtend b0) = i := by
  induction m generalizing i with
  | zero =>
    simp only [pow_zero, Int.ediv_one] at hlo hhi
    refine ⟨(i % 256).toNat, [], by simp [base256Int], ?_⟩
    simp only [List.foldl_nil, signExtend]
    split <;> omega
  | succ m ih =>
    have hdiv : i / 256 / 256 ^ m = i / 256 ^ (m + 1) := by
      rw [ediv_ediv_pos i 256 _ (by norm_num) (by positivity), pow_succ, mul_comm]
    obtain ⟨b0, rest, hb, hv⟩ := ih (i / 256) (by rw [hdiv]; exact hlo) (by rw [hdiv]; exact hhi)
    refine ⟨b0, rest ++ [(i % 256).toNat], ?_, ?_⟩
    · rw [base256Int, hb]; rfl
    · rw [List.foldl_append, hv]
      simp only [List.foldl_cons, List.foldl_nil]
      omega

/-- The two leading octets of a two's complement form on at least two octets. -/
theorem base256Int_leading (m : Nat) (i : Int) :
    ∃ rest, base256Int (m + 2) i =
      (i / 256 ^ m / 256 % 256).toNat :: (i / 256 ^ m % 256).toNat :: rest := by
  induction m generalizing i with
  | zero =>
    refine ⟨[], ?_⟩
    simp [base256Int]
  | succ m ih =>
    obtain ⟨rest, hr⟩ := ih (i / 256)
    have hdiv : i / 256 / 256 ^ m = i / 256 ^ (m + 1) := by
      rw [ediv_ediv_pos i 256 _ (by norm_num) (by positivity), pow_succ, mul_comm]
    refine ⟨rest ++ [(i % 256).toNat], ?_⟩
    rw [base256Int, hr, hdiv]
    rfl

/-- Decoding the content written by `int64Encode` gives the integer back. -/
theorem parseInteger_int64Encode (i : Int) : parseInteger (int64Encode i) = some i := by
  obtain ⟨m, hm, hlo, hhi, hmin⟩ := int64LengthAux_spec i.natAbs i (le_refl _)
  have henc : int64Encode i = base256Int (m + 1) i := by
    unfold int64Encode int64Length
    simp only [hm]
    exact range_map_eq_base256Int (m + 1) i
  rw [henc]
  obtain ⟨b0, rest, hb, hv⟩ := foldl_base256Int m i hlo hhi
  cases m with
  | zero =>
    have h1 : base256Int 1 i = [(i % 256).toNat] := by simp [base256Int]
    rw [h1] at hb ⊢
    have hb0 : b0 = (i % 256).toNat := by
      have := List.cons.inj hb
      exact this.1.symm
    have hrest : rest = [] := (List.cons.inj hb).2.symm
    subst hrest
    simp only [List.foldl_nil] at hv
    simp only [parseInteger, ← hb0, hv]
  | succ k =>
    obtain ⟨tl, htl⟩ := base256Int_leading k i
    have hnot := hmin k rfl
    have hdiv : i / 256 ^ k / 256 = i / 256 ^ (k + 1) := by
      rw [ediv_ediv_pos i (256 ^ k) 256 (by positivity) (by norm_num), pow_succ]
    rw [htl] at hb ⊢
    have hb0 : b0 = (i / 256 ^ k / 256 % 256).toNat := (List.cons.inj hb).1.symm
    have hrest : rest = (i / 256 ^ k % 256).toNat :: tl := (List.cons.inj hb).2.symm
    rw [hb0, hrest] at hv
    have hq1 : -128 ≤ i / 256 ^ k / 256 := by rw [hdiv]; exact hlo
    have hq2 : i / 256 ^ k / 256 ≤ 127 := by rw [hdiv]; exact hhi
    have hcheck : ¬ (((i / 256 ^ k / 256 % 256).toNat = 0 ∧ (i / 256 ^ k % 256).toNat < 128) ∨
        ((i / 256 ^ k / 256 % 256).toNat = 255 ∧ (i / 256 ^ k % 256).toNat ≥ 128)) := by
      omega
    simp only [parseInteger, hcheck, if_false, hv]

/-- Decoding the encoding of a provisioner structure gives the structure back, with the
bytes that follow it, as long as the encoding fits a Go slice. -/
theorem Unmarshal_Marshal (x : stepProvisionerASN1) (rest : List Nat)
    (h : (Marshal x).1.length < 2 ^ 63) :
    Unmarshal ((Marshal x).1 ++ rest) = some (x, rest) := by
  have hM : (Marshal x).1 = tlv 0x30 (tlv 0x02 (int64Encode x.Typ) ++ tlv 0x04 x.Name ++
      tlv 0x04 x.CredentialID) := rfl
  rw [hM] at h ⊢
  have hbody := length_le_length_tlv 0x30 (tlv 0x02 (int64Encode x.Typ) ++ tlv 0x04 x.Name ++
      tlv 0x04 x.CredentialID)
  rw [List.length_append, List.length_append] at hbody
  have h1 := length_le_length_tlv 0x02 (int64Encode x.Typ)
  have h2 := length_le_length_tlv 0x04 x.Name
  have h3 := length_le_length_tlv 0x04 x.CredentialID
  have e0 := parseElement_tlv 0x30 (tlv 0x02 (int64Encode x.Typ) ++ tlv 0x04 x.Name ++
      tlv 0x04 x.CredentialID) rest (by rw [List.length_append, List.length_append]; omega)
  have e1 := parseElement_tlv 0x02 (int64Encode x.Typ)
    (tlv 0x04 x.Name ++ tlv 0x04 x.CredentialID) (by omega)
  have e2 := parseElement_tlv 0x04 x.Name (tlv 0x04 x.CredentialID) (by omega)
  have e3 := parseElement_tlv 0x04 x.CredentialID [] (by omega)
  rw [List.append_nil] at e3
  unfold Unmarshal
  simp only [List.append_assoc] at e0 ⊢
  simp only [e0, e1, parseInteger_int64Encode, e2, e3]

/-- A character is determined by its code point. -/
theorem char_eq_of_toNat_eq (c d : Char) (h : c.toNat = d.toNat) : c = d :=
  Char.ext (UInt32.eq_of_toBitVec_eq (BitVec.eq_of_toNat_eq h))

/-- A code point is below `0x110000`. -/
theorem char_toNat_lt (c : Char) : c.toNat < 0x110000 := by
  have h := c.valid
  unfold UInt32.isValidChar Nat.isValidChar at h
  unfold Char.toNat
  omega

/-- The UTF-8 form of a character can be read off the front of a byte string. -/
theorem utf8EncodeChar_append_inj (c d : Char) (r r' : List Nat)
    (h : utf8EncodeChar c ++ r = utf8EncodeChar d ++ r') : c = d ∧ r = r' := by
  have hc := char_toNat_lt c
  have hd := char_toNat_lt d
  have key : c.toNat = d.toNat ∧ r = r' := by
    unfold utf8EncodeChar at h
    simp only at h
    split_ifs at h <;>
      simp only [List.cons_append, List.nil_append, List.cons.injEq] at h <;>
      first
        | (exfalso; omega)
        | exact ⟨by omega, by simp only [h]⟩
  exact ⟨char_eq_of_toNat_eq c d key.1, key.2⟩

/-- The UTF-8 form of a character is not empty. -/
theorem utf8EncodeChar_ne_nil (c : Char) : utf8EncodeChar c ≠ [] := by
  unfold utf8EncodeChar
  simp only
  split_ifs <;> simp

/-- Two strings with the same bytes are the same string. -/
theorem bytesOf_injective (s t : String) (h : bytesOf s = bytesOf t) : s = t := by
  have key : ∀ a b : List Char,
      a.flatMap utf8EncodeChar = b.flatMap utf8EncodeChar → a = b := by
    intro a
    induction a with
    | nil =>
      intro b hb
      cases b with
      | nil => rfl
      | cons d ds =>
        simp only [List.flatMap_nil, List.flatMap_cons] at hb
        have hl := congrArg List.length hb
        have hne := utf8EncodeChar_ne_nil d
        cases hd : utf8EncodeChar d with
        | nil => exact absurd hd hne
        | cons x xs => rw [hd] at hl; simp at hl
    | cons c cs ih =>
      intro b hb
      cases b with
      | nil =>
        simp only [List.flatMap_nil, List.flatMap_cons] at hb
        have hl := congrArg List.length hb
        have hne := utf8EncodeChar_ne_nil c
        cases hd : utf8EncodeChar c with
        | nil => exact absurd hd hne
        | cons x xs => rw [hd] at hl; simp at hl
      | cons d ds =>
        simp only [List.flatMap_cons] at hb
        obtain ⟨hcd, hrest⟩ := utf8EncodeChar_append_inj c d _ _ hb
        rw [hcd, ih ds hrest]
  unfold bytesOf at h
  have hdata := key s.data t.data h
  cases s; cases t
  simp only at hdata
  rw [hdata]

/-- C11. The extension value that `provisionerExtensionOption.Option()` produces is the
tag-length-value encoding of a SEQUENCE (`0x30`) of exactly three elements, in the order
INTEGER (`0x02`) for the type, OCTET STRING (`0x04`) for the bytes of the name, OCTET STRING
for the bytes of the credential ID; decoding it gives back exactly that structure with no
byte left over, and the structure determines the triple: an option that decodes to the same
structure is the same option. The encoding is assumed to fit a Go slice (fewer than `2 ^ 63`
bytes). -/
theorem provisionerExtensionOption_Option_value_roundtrip (o : provisionerExtensionOption)
    (p : Profile)
    (hfit : (Marshal ⟨o.Typ, bytesOf o.Name, bytesOf o.CredentialID⟩).1.length < 2 ^ 63) :
    ∃ ext : Extension,
      (o.Option p).1.subject.ExtraExtensions.toList =
        p.subject.ExtraExtensions.toList ++ [ext] ∧
      ext.Value = tlv 0x30 (tlv 0x02 (int64Encode o.Typ) ++ tlv 0x04 (bytesOf o.Name) ++
        tlv 0x04 (bytesOf o.CredentialID)) ∧
      Unmarshal ext.Value = some (⟨o.Typ, bytesOf o.Name, bytesOf o.CredentialID⟩, []) ∧
      ∀ o' : provisionerExtensionOption,
        Unmarshal ext.Value = some (⟨o'.Typ, bytesOf o'.Name, bytesOf o'.CredentialID⟩, []) →
        o' = o := by
  have hrt := Unmarshal_Marshal ⟨o.Typ, bytesOf o.Name, bytesOf o.CredentialID⟩ [] hfit
  rw [List.append_nil] at hrt
  refine ⟨⟨stepOIDProvisioner, false,
    (Marshal ⟨o.Typ, bytesOf o.Name, bytesOf o.CredentialID⟩).1⟩, ?_, rfl, hrt, ?_⟩
  · simp [provisionerExtensionOption.Option, provisionerExtensionOption.OptionWith, Marshal,
      Slice.append, Slice.toList]
  · intro o' ho'
    simp only at ho'
    rw [hrt] at ho'
    have hx : (⟨o.Typ, bytesOf o.Name, bytesOf o.CredentialID⟩ : stepProvisionerASN1) =
        ⟨o'.Typ, bytesOf o'.Name, bytesOf o'.CredentialID⟩ := by
      have := Option.some.inj ho'
      exact (Prod.mk.inj this).1
    have h1 : o.Typ = o'.Typ := congrArg stepProvisionerASN1.Typ hx
    have h2 : o.Name = o'.Name :=
      bytesOf_injective _ _ (congrArg stepProvisionerASN1.Name hx)
    have h3 : o.CredentialID = o'.CredentialID :=
      bytesOf_injective _ _ (congrArg stepProvisionerASN1.CredentialID hx)
    cases o
    cases o'
    simp only at h1 h2 h3
    rw [h1, h2, h3]

/-- C11, on the triple `(6, test@acme-provisioner.com, "")` of the test provisioner: the
encoding has 34 bytes, and the option applied to a certificate yields a value that decodes
to the triple. -/
theorem provisionerExtensionOption_Option_value_roundtrip_witness :
    (Marshal ⟨testOption.Typ, bytesOf testOption.Name,
      bytesOf testOption.CredentialID⟩).1.length < 2 ^ 63 ∧
    ∃ ext : Extension,
      (testOption.Option (profileOf testCert)).1.subject.ExtraExtensions.toList =
        (profileOf testCert).subject.ExtraExtensions.toList ++ [ext] ∧
      ext.Value = tlv 0x30 (tlv 0x02 (int64Encode testOption.Typ) ++
        tlv 0x04 (bytesOf testOption.Name) ++ tlv 0x04 (bytesOf testOption.CredentialID)) ∧
      Unmarshal ext.Value = some (⟨testOption.Typ, bytesOf testOption.Name,
        bytesOf testOption.CredentialID⟩, []) ∧
      ∀ o' : provisionerExtensionOption,
        Unmarshal ext.Value = some (⟨o'.Typ, bytesOf o'.Name, bytesOf o'.CredentialID⟩, []) →
        o' = testOption :=
  ⟨by decide,
    provisionerExtensionOption_Option_value_roundtrip testOption (profileOf testCert)
      (by decide)⟩

/-- The bytes of the extension value of the test provisioner, and what they decode to. -/
theorem testOption_value :
    (Marshal ⟨testOption.Typ, bytesOf testOption.Name, bytesOf testOption.CredentialID⟩).1 =
      [48, 32, 2, 1, 6, 4, 25, 116, 101, 115, 116, 64, 97, 99, 109, 101, 45, 112, 114, 111,
        118, 105, 115, 105, 111, 110, 101, 114, 46, 99, 111, 109, 4, 0] ∧
    Unmarshal [48, 32, 2, 1, 6, 4, 25, 116, 101, 115, 116, 64, 97, 99, 109, 101, 45, 112, 114,
        111, 118, 105, 115, 105, 111, 110, 101, 114, 46, 99, 111, 109, 4, 0] =
      some (⟨6, bytesOf "test@acme-provisioner.com", []⟩, []) := by
  decide

end provisioner
